import Mathlib

/-!
Shallow embedding of the coordinator versioned KV store of dingo-store
(`src/coordinator/kv_control_kv.cc`), together with proofs settling the
frozen claims about it.

Keys and values are byte strings, modelled as `List Nat` (each element a
byte value).  Protobuf `int64` fields are modelled as `Int`.  The two maps
(`kv_index_map_`, `kv_rev_map_`) are modelled as association lists; the
meta-writer is modelled as an event log appended to the state.
-/

namespace DingoKv

/-- Byte strings (keys, values, encoded revisions) as lists of byte values. -/
abbrev Key := List Nat

/-- Status of a KvControl call: `butil::Status::OK()` or an error status. -/
inductive KStatus where
  | ok : KStatus
  | err : KStatus
deriving DecidableEq, Repr

/-- Revision pair, mirroring `pb::coordinator_internal::RevisionInternal`
with int64 fields `main` and `sub`. -/
structure Revision where
  main : Int
  sub : Int
deriving DecidableEq, Repr

/-- Strict order on revisions: numeric order on the pair (main, sub). -/
def revLt (a b : Revision) : Prop :=
  a.main < b.main ∨ (a.main = b.main ∧ a.sub < b.sub)

instance (a b : Revision) : Decidable (revLt a b) := by
  unfold revLt; infer_instance

/-- Generation record of a KeyIndex, mirroring
`pb::coordinator_internal::KvIndexInternal::Generation`.  The field name
`verison` keeps the source's (misspelled) protobuf field name.  An absent
`createRevision` marks a tombstone generation. -/
structure Generation where
  createRevision : Option Revision
  verison : Int
  revisions : List Revision
deriving DecidableEq, Repr

/-- Per-key index record, mirroring `pb::coordinator_internal::KvIndexInternal`. -/
structure KvIndexInternal where
  id : Key
  modRevision : Revision
  generations : List Generation
deriving DecidableEq, Repr

/-- Inner KV record, mirroring `pb::coordinator_internal::KvInternal`. -/
structure KvInternal where
  id : Key
  value : List Nat
  createRevision : Revision
  modRevision : Revision
  version : Int
  lease : Int
  isDeleted : Bool
deriving DecidableEq, Repr

/-- Default-constructed `KvInternal` (all protobuf fields at defaults). -/
def KvInternal.default : KvInternal :=
  { id := [], value := [], createRevision := ⟨0, 0⟩, modRevision := ⟨0, 0⟩,
    version := 0, lease := 0, isDeleted := false }

/-- Per-revision record, mirroring `pb::coordinator_internal::KvRevInternal`:
`id` is the 17-byte encoded revision, `kv` the value record. -/
structure KvRevInternal where
  id : Key
  kv : KvInternal
deriving DecidableEq, Repr

/-- Default-constructed `KvRevInternal`. -/
def KvRevInternal.default : KvRevInternal := { id := [], kv := KvInternal.default }

/-- Output record of `KvRange`, mirroring the fields of `pb::version::Kv`
set by the source (`create_revision`/`mod_revision` carry the `main`
component only). -/
structure VKv where
  createRevision : Int
  modRevision : Int
  version : Int
  lease : Int
  key : Key
  value : List Nat
deriving DecidableEq, Repr

/-- Lease registry entry; only existence and the bound key set matter to the
claims (`kv_lease_map_`). -/
structure LeaseInternal where
  id : Int
  keys : List Key
deriving DecidableEq, Repr

/-- Meta-writer events: every `PutRawKvIndex` / `DeleteRawKvIndex` /
`PutRawKvRev` / `DeleteRawKvRev` also appends the mutation to the
meta-writer; we record those calls in an event log. -/
inductive MetaOp where
  | putIdx (k : Key) (v : KvIndexInternal)
  | delIdx (k : Key)
  | putRev (k : Key) (v : KvRevInternal)
  | delRev (k : Key)
deriving DecidableEq, Repr

/-- State of `KvControl` relevant to the claims: the two maps, the lease
registry and the meta-writer log. -/
structure KvState where
  kvIndexMap : List (Key × KvIndexInternal)
  kvRevMap : List (Key × KvRevInternal)
  kvLeaseMap : List (Int × LeaseInternal)
  metaLog : List MetaOp
deriving DecidableEq, Repr

/-! ### Association-list map primitives -/

/-- Point lookup in an association list (first matching entry). -/
def mapGet {α β : Type} [DecidableEq α] (k : α) (l : List (α × β)) : Option β :=
  (l.find? (fun p => p.1 = k)).map (fun p => p.2)

/-- Point write: replace every entry with key `k`, or append when absent. -/
def mapPut {α β : Type} [DecidableEq α] (k : α) (v : β) (l : List (α × β)) :
    List (α × β) :=
  if l.any (fun p => p.1 = k) then
    l.map (fun p => if p.1 = k then (k, v) else p)
  else
    l ++ [(k, v)]

/-- Point erase: drop every entry with key `k`. -/
def mapErase {α β : Type} [DecidableEq α] (k : α) (l : List (α × β)) :
    List (α × β) :=
  l.filter (fun p => ¬ p.1 = k)

/-! ### Byte-string order (C++ `std::string::compare`, unsigned bytes) -/

/-- Lexicographic strict order on byte strings, matching
`std::string::compare(...) < 0` with unsigned byte comparison and a
shorter-string tiebreak. -/
def keyLt : Key → Key → Bool
  | [], [] => false
  | [], _ :: _ => true
  | _ :: _, [] => false
  | a :: as, b :: bs => a < b || (a == b && keyLt as bs)

/-! ### Revision encoding (`RevisionToString` / `StringToRevision`) -/

/-- Big-endian fixed-width byte encoding of a natural number. -/
def bytesBE : Nat → Nat → List Nat
  | 0, _ => []
  | w + 1, n => bytesBE w (n / 256) ++ [n % 256]

/-- Big-endian decoding of a byte list back to a natural number. -/
def readNatBE (bs : List Nat) : Nat :=
  bs.foldl (fun acc b => acc * 256 + b) 0

/-- Modelled from the spec: `Buf::WriteLong` (from `serial/buf.h`, not under
`src/`) writes the 8-byte big-endian two's-complement form of an int64, per
the fixed `[main:8][sep:1][sub:8]` layout of section 3. -/
def writeLong (v : Int) : List Nat :=
  bytesBE 8 (v.emod (2 ^ 64)).toNat

/-- Modelled from the spec: `Buf::ReadLong` (from `serial/buf.h`, not under
`src/`) reads 8 big-endian bytes back into an int64 (two's complement). -/
def readLong (bs : List Nat) : Int :=
  let n := readNatBE bs
  if n < 2 ^ 63 then (n : Int) else (n : Int) - 2 ^ 64

/-- Serialized revision: `[main:8]['_'][sub:8]`, 17 bytes, mirroring
`KvControl::RevisionToString`. -/
def revisionToString (r : Revision) : Key :=
  writeLong r.main ++ [95] ++ writeLong r.sub

/-- Inverse of `revisionToString`, mirroring `KvControl::StringToRevision`:
inputs whose length is not 17 yield the default (zero) revision. -/
def stringToRevision (s : Key) : Revision :=
  if s.length ≠ 17 then ⟨0, 0⟩
  else ⟨readLong (s.take 8), readLong ((s.drop 9).take 8)⟩

/-! ### Configuration flags (gflags defaults in the source) -/

/-- Mirrors `FLAGS_max_kv_key_size` (default 4096). -/
def maxKvKeySize : Nat := 4096

/-- Mirrors `FLAGS_max_kv_value_size` (default 8192). -/
def maxKvValueSize : Nat := 8192

/-! ### Raw map accessors (each write also appends to the meta-writer log) -/

/-- Mirrors `KvControl::GetRawKvIndex` (lookup in `kv_index_map_`). -/
def getRawKvIndex (s : KvState) (key : Key) : Option KvIndexInternal :=
  mapGet key s.kvIndexMap

/-- Mirrors `KvControl::PutRawKvIndex`: write to `kv_index_map_` and the
meta-writer. -/
def putRawKvIndex (key : Key) (ki : KvIndexInternal) (s : KvState) : KvState :=
  { s with kvIndexMap := mapPut key ki s.kvIndexMap,
           metaLog := s.metaLog ++ [MetaOp.putIdx key ki] }

/-- Mirrors `KvControl::DeleteRawKvIndex`: erase from `kv_index_map_` and the
meta-writer. -/
def deleteRawKvIndex (key : Key) (s : KvState) : KvState :=
  { s with kvIndexMap := mapErase key s.kvIndexMap,
           metaLog := s.metaLog ++ [MetaOp.delIdx key] }

/-- Mirrors `KvControl::GetRawKvRev` (lookup in `kv_rev_map_` by the 17-byte
encoded revision). -/
def getRawKvRev (s : KvState) (revision : Revision) : Option KvRevInternal :=
  mapGet (revisionToString revision) s.kvRevMap

/-- Mirrors `KvControl::PutRawKvRev`: write to `kv_rev_map_` and the
meta-writer. -/
def putRawKvRev (revision : Revision) (kvRev : KvRevInternal) (s : KvState) :
    KvState :=
  { s with kvRevMap := mapPut (revisionToString revision) kvRev s.kvRevMap,
           metaLog := s.metaLog ++ [MetaOp.putRev (revisionToString revision) kvRev] }

/-- Mirrors `KvControl::DeleteRawKvRev`: erase from `kv_rev_map_` and the
meta-writer. -/
def deleteRawKvRev (revision : Revision) (s : KvState) : KvState :=
  { s with kvRevMap := mapErase (revisionToString revision) s.kvRevMap,
           metaLog := s.metaLog ++ [MetaOp.delRev (revisionToString revision)] }

/-- Existence test on `kv_lease_map_` (`DingoSafeMap::Exists`). -/
def leaseExists (s : KvState) (leaseId : Int) : Bool :=
  s.kvLeaseMap.any (fun p => p.1 = leaseId)

/-! ### Range read path -/

/-- Liveness test used by both `RangeRawKvIndex`'s filter and `KvRange`'s
loop: the index has at least one generation and its latest generation has a
`create_revision` and a nonempty revision list. -/
def hasLiveLatest (ki : KvIndexInternal) : Bool :=
  match ki.generations.getLast? with
  | none => false
  | some g => g.createRevision.isSome && !g.revisions.isEmpty

/-- Modelled from the spec: `Helper::PrefixNext` (from `common/helper.h`, not
under `src/`) computes the next byte string after `k` by add-one-with-carry;
a string of all `0xff` bytes is returned unchanged.  It is only used as a
scan upper bound for the point-lookup branch of `RangeRawKvIndex`, whose
result is fixed by the `id == key` filter. -/
def nextOfKeyAux : Key → Option Key
  | [] => none
  | b :: rest =>
    if b = 255 then (nextOfKeyAux rest).map (fun t => 0 :: t) else some ((b + 1) :: rest)

/-- Forward direction of `nextOfKeyAux` on un-reversed byte strings. -/
def nextOfKey (k : Key) : Key :=
  match nextOfKeyAux k.reverse with
  | none => k
  | some r => r.reverse

/-- Modelled from the spec: `DingoSafeMap::GetRangeValues` (not under
`src/`) enumerates the entries of the map whose key lies in the half-open
interval `[lower, upper)` and whose value satisfies the filter, per the
ordered range operation of section 4.B. -/
def getRangeValues (m : List (Key × KvIndexInternal)) (lower upper : Key)
    (filterFn : KvIndexInternal → Bool) : List KvIndexInternal :=
  (m.filter (fun p => !(keyLt p.1 lower) && keyLt p.1 upper && filterFn p.2)).map
    (fun p => p.2)

/-- Scan upper bound computed by `RangeRawKvIndex`: the single byte `0x00`
maps to `max_kv_key_size` `0xff` bytes, an empty `range_end` to
`PrefixNext(key)`, anything else to itself. -/
def rangeUpperBound (key rangeEnd : Key) : Key :=
  if rangeEnd = [0] then List.replicate maxKvKeySize 255
  else if rangeEnd = [] then nextOfKey key
  else rangeEnd

/-- Value filter passed by `RangeRawKvIndex` to `GetRangeValues`: live
latest generation, then the per-shape key comparison of the source. -/
def rangeFilterFn (key rangeEnd : Key) (ki : KvIndexInternal) : Bool :=
  if !(hasLiveLatest ki) then false
  else if rangeEnd = [] then ki.id = key
  else if rangeEnd = [0] then !(keyLt ki.id key)
  else !(keyLt ki.id key) && keyLt ki.id rangeEnd

/-- Mirrors `KvControl::RangeRawKvIndex`: scan `[key, upper)` with the
liveness-and-range filter. -/
def rangeRawKvIndex (s : KvState) (key rangeEnd : Key) : List KvIndexInternal :=
  getRangeValues s.kvIndexMap key (rangeUpperBound key rangeEnd)
    (rangeFilterFn key rangeEnd)

/-- Index resolution step of `KvControl::KvRange`: an empty `range_end`
dispatches to a point `GetRawKvIndex` (empty result when absent), otherwise
to `RangeRawKvIndex`. -/
def kvRangeSelect (s : KvState) (key rangeEnd : Key) : List KvIndexInternal :=
  if rangeEnd = [] then
    match getRawKvIndex s key with
    | none => []
    | some ki => [ki]
  else rangeRawKvIndex s key rangeEnd

/-- Projection of a `KvRevInternal` to the `pb::version::Kv` fields set by
the `KvRange` loop (`keys_only` suppresses the value). -/
def mkVKv (keysOnly : Bool) (kvRev : KvRevInternal) : VKv :=
  { createRevision := kvRev.kv.createRevision.main,
    modRevision := kvRev.kv.modRevision.main,
    version := kvRev.kv.version,
    lease := kvRev.kv.lease,
    key := kvRev.kv.id,
    value := if keysOnly then [] else kvRev.kv.value }

/-- Main loop of `KvControl::KvRange`: skip non-live indexes, stop once
`limit_count` exceeds `limit`, skip value lookup under `count_only`, skip
entries whose `mod_revision` is missing from `kv_rev_map_`. -/
def kvRangeLoop (s : KvState) (keysOnly countOnly : Bool) (limit : Int) :
    List KvIndexInternal → Int → List VKv → List VKv
  | [], _, acc => acc
  | ki :: rest, limitCount, acc =>
    if hasLiveLatest ki then
      if limitCount + 1 > limit then acc
      else if countOnly then kvRangeLoop s keysOnly countOnly limit rest (limitCount + 1) acc
      else
        match getRawKvRev s ki.modRevision with
        | none => kvRangeLoop s keysOnly countOnly limit rest (limitCount + 1) acc
        | some kvRev =>
          kvRangeLoop s keysOnly countOnly limit rest (limitCount + 1)
            (acc ++ [mkVKv keysOnly kvRev])
    else kvRangeLoop s keysOnly countOnly limit rest limitCount acc

/-- Mirrors `KvControl::KvRange`: returns the output vector `kv` and the
out-parameter `total_count_in_range` (set to `kv.size()` at the end; `0`
when the point-lookup path returns early).  A `limit` of `0` is replaced by
`INT64_MAX`. -/
def kvRange (s : KvState) (key rangeEnd : Key) (limit : Int)
    (keysOnly countOnly : Bool) : List VKv × Int :=
  let limitEff : Int := if limit = 0 then 2 ^ 63 - 1 else limit
  let kvs := kvRangeLoop s keysOnly countOnly limitEff (kvRangeSelect s key rangeEnd) 0 []
  (kvs, (kvs.length : Int))

/-! ### Put apply (`KvControl::KvPutApply`) -/

/-- Previous `mod_revision` used by the apply paths: the stored index's
`mod_revision` when the key is present, the default (zero) revision
otherwise. -/
def lastModRevisionOf (s : KvState) (key : Key) : Revision :=
  match mapGet key s.kvIndexMap with
  | none => ⟨0, 0⟩
  | some ki => ki.modRevision

/-- Previous `KvRev` loaded by the apply paths (`kv_rev_last`); a failed
lookup leaves the default-constructed record, as in the source. -/
def kvRevLastOf (s : KvState) (key : Key) : KvRevInternal :=
  (getRawKvRev s (lastModRevisionOf s key)).getD KvRevInternal.default

/-- Lease resolved by `KvPutApply` for the new `KvRev`: with `ignore_lease`
the lease of the key's previous `KvRev`, otherwise the supplied `lease_id`. -/
def resolvedLease (s : KvState) (key : Key) (ignoreLease : Bool)
    (leaseId : Int) : Int :=
  if ignoreLease then (kvRevLastOf s key).kv.lease else leaseId

/-- KeyIndex update step of `KvPutApply` (source lines 553-606), as a
function of the previously stored index (`none` when `GetRawKvIndex`
fails): returns the new index together with `last_mod_revision`,
`new_create_revision` and `new_version`. -/
def kvPutApplyIndexUpdate (key : Key) (opRevision : Revision)
    (prev : Option KvIndexInternal) :
    KvIndexInternal × Revision × Revision × Int :=
  match prev with
  | none =>
    let g : Generation := ⟨some opRevision, 1, [opRevision]⟩
    (⟨key, opRevision, [g]⟩, ⟨0, 0⟩, opRevision, 1)
  | some ki0 =>
    let lastMod := ki0.modRevision
    match ki0.generations.getLast? with
    | none =>
      let g : Generation := ⟨some opRevision, 1, [opRevision]⟩
      ({ ki0 with modRevision := opRevision, generations := [g] },
       lastMod, opRevision, 1)
    | some latest =>
      if latest.createRevision.isSome then
        let latest' : Generation :=
          { latest with revisions := latest.revisions ++ [opRevision],
                        verison := latest.verison + 1 }
        ({ ki0 with modRevision := opRevision,
                    generations := ki0.generations.dropLast ++ [latest'] },
         lastMod, latest.createRevision.getD ⟨0, 0⟩, latest'.verison)
      else
        let latest' : Generation := ⟨some opRevision, 1, [opRevision]⟩
        ({ ki0 with modRevision := opRevision,
                    generations := ki0.generations.dropLast ++ [latest'] },
         lastMod, opRevision, 1)

/-- Mirrors `KvControl::KvPutApply`.  The lease-existence check precedes all
writes; on its failure the command returns an error with the state (both
maps and the meta-writer log) untouched. -/
def kvPutApply (s : KvState) (key : Key) (opRevision : Revision)
    (ignoreLease : Bool) (leaseId : Int) (ignoreValue : Bool)
    (value : List Nat) : KvState × KStatus :=
  let upd := kvPutApplyIndexUpdate key opRevision (mapGet key s.kvIndexMap)
  let kvIndex := upd.1
  let lastMod := upd.2.1
  let newCreateRevision := upd.2.2.1
  let newVersion := upd.2.2.2
  let kvRevLast := (getRawKvRev s lastMod).getD KvRevInternal.default
  let kv : KvInternal :=
    { id := key,
      value := if ignoreValue then kvRevLast.kv.value else value,
      createRevision := newCreateRevision,
      modRevision := opRevision,
      version := newVersion,
      lease := if ignoreLease then kvRevLast.kv.lease else leaseId,
      isDeleted := false }
  let kvRev : KvRevInternal := { id := revisionToString opRevision, kv := kv }
  if kv.lease > 0 ∧ leaseExists s kv.lease = false then (s, KStatus.err)
  else
    let s1 := putRawKvIndex key kvIndex s
    let s2 := putRawKvRev opRevision kvRev s1
    (s2, KStatus.ok)

/-! ### Delete apply (`KvControl::KvDeleteApply`) -/

/-- KeyIndex update step of `KvDeleteApply` (source lines 717-752): returns
the new index together with `new_create_revision` and `new_version`. -/
def kvDeleteApplyIndexUpdate (opRevision : Revision) (ki0 : KvIndexInternal) :
    KvIndexInternal × Revision × Int :=
  match ki0.generations.getLast? with
  | none =>
    ({ ki0 with modRevision := opRevision, generations := [⟨none, 0, []⟩] },
     opRevision, 1)
  | some latest =>
    if latest.createRevision.isSome then
      let latest' : Generation :=
        { latest with revisions := latest.revisions ++ [opRevision],
                      verison := latest.verison + 1 }
      ({ ki0 with modRevision := opRevision,
                  generations := ki0.generations.dropLast ++ [latest', ⟨none, 0, []⟩] },
       latest'.createRevision.getD ⟨0, 0⟩, latest'.verison)
    else
      ({ ki0 with modRevision := opRevision },
       latest.createRevision.getD ⟨0, 0⟩, latest.verison)

/-- Mirrors `KvControl::KvDeleteApply`: a missing key is a no-op; otherwise
the latest open generation receives the delete revision and is closed by an
empty tombstone generation, and a `KvRev` marked `is_deleted` is written. -/
def kvDeleteApply (s : KvState) (key : Key) (opRevision : Revision) :
    KvState × KStatus :=
  match mapGet key s.kvIndexMap with
  | none => (s, KStatus.ok)
  | some ki0 =>
    let upd := kvDeleteApplyIndexUpdate opRevision ki0
    let kvIndex := upd.1
    let newCreateRevision := upd.2.1
    let newVersion := upd.2.2
    let kv : KvInternal :=
      { id := key, value := [], createRevision := newCreateRevision,
        modRevision := opRevision, version := newVersion, lease := 0,
        isDeleted := true }
    let kvRev : KvRevInternal := { id := revisionToString opRevision, kv := kv }
    let s1 := putRawKvIndex key kvIndex s
    let s2 := putRawKvRev opRevision kvRev s1
    (s2, KStatus.ok)

/-! ### Compaction apply (`KvControl::KvCompactApply`) -/

/-- History-generation loop of `KvCompactApply` (source lines 937-963): once
the new index is nonempty later generations are copied wholesale; before
that, open generations are filtered by `main ≥ compact.main` and retained
only when some revision survives, filtered-out revisions accumulating in the
to-delete list. -/
def compactHistLoop (compact : Revision) :
    List Generation → List Generation → List Revision →
    List Generation × List Revision
  | [], acc, dels => (acc, dels)
  | g :: rest, [], dels =>
    if g.createRevision.isSome then
      let kept := g.revisions.filter (fun rv => !(decide (rv.main < compact.main)))
      let dropped := g.revisions.filter (fun rv => decide (rv.main < compact.main))
      if kept.isEmpty then compactHistLoop compact rest [] (dels ++ dropped)
      else
        compactHistLoop compact rest [⟨g.createRevision, g.verison, kept⟩]
          (dels ++ dropped)
    else compactHistLoop compact rest [] dels
  | g :: rest, a :: acc, dels => compactHistLoop compact rest ((a :: acc) ++ [g]) dels

/-- Latest-generation step of `KvCompactApply` (source lines 965-1003): a
tombstone is retained only when earlier generations survived; an open latest
generation is copied wholesale when earlier generations survived, and
otherwise filtered with its final revision always retained. -/
def compactLatest (compact : Revision) (latest : Generation) :
    List Generation → List Revision → List Generation × List Revision
  | [], dels =>
    if latest.createRevision.isSome then
      match latest.revisions.getLast? with
      | none => ([], dels)
      | some lastRv =>
        let front := latest.revisions.dropLast
        let kept := front.filter (fun rv => !(decide (rv.main < compact.main))) ++ [lastRv]
        let dropped := front.filter (fun rv => decide (rv.main < compact.main))
        ([⟨latest.createRevision, latest.verison, kept⟩], dels ++ dropped)
    else ([], dels)
  | a :: acc, dels => ((a :: acc) ++ [latest], dels)

/-- Combined generation-list compaction of `KvCompactApply` (history loop
followed by the latest-generation step): the surviving generations and the
revisions to erase from `kv_rev_map_`. -/
def compactGens (compact : Revision) (gens : List Generation) :
    List Generation × List Revision :=
  match gens.getLast? with
  | none => ([], [])
  | some latest =>
    let histOut := compactHistLoop compact gens.dropLast [] []
    compactLatest compact latest histOut.1 histOut.2

/-- Mirrors `KvControl::KvCompactApply`: a missing key is an error, an index
with no generations a no-op; otherwise the generation list is compacted, the
index erased when nothing survives (written back otherwise), and every
filtered-out revision erased from `kv_rev_map_`. -/
def kvCompactApply (s : KvState) (key : Key) (compact : Revision) :
    KvState × KStatus :=
  match mapGet key s.kvIndexMap with
  | none => (s, KStatus.err)
  | some ki =>
    match ki.generations.getLast? with
    | none => (s, KStatus.ok)
    | some _ =>
      let out := compactGens compact ki.generations
      let newGens := out.1
      let dels := out.2
      let newKvIndex := { ki with generations := newGens }
      let s1 :=
        if newGens.isEmpty then deleteRawKvIndex key s
        else putRawKvIndex key newKvIndex s
      let s2 := dels.foldl (fun st rv => deleteRawKvRev rv st) s1
      (s2, KStatus.ok)

/-! ### Compaction task (`KvControl::CompactionTask`) -/

/-- Batching loop of `CompactionTask` (source lines 850-873): a key seen
while the current batch already holds 50 entries flushes the batch but is
itself discarded; a nonempty final batch is flushed after the loop. -/
def compactionBatchLoop : List Key → List Key → List (List Key) → List (List Key)
  | [], acc, out => if acc.isEmpty then out else out ++ [acc]
  | k :: rest, acc, out =>
    if acc.length < 50 then compactionBatchLoop rest (acc ++ [k]) out
    else compactionBatchLoop rest [] (out ++ [acc])

/-- Mirrors `KvControl::CompactionTask`: returns the list of issued
`KvCompact` submissions (key batch and compact revision).  Nothing is issued
when `auto_compaction` is off or `next_revision < retention`. -/
def compactionTaskBatches (autoCompactionFlag : Bool) (retentionCount : Int)
    (nowRevision : Int) (keys : List Key) : List (List Key × Revision) :=
  if autoCompactionFlag = false then []
  else if nowRevision < retentionCount then []
  else
    let compact : Revision := ⟨nowRevision - retentionCount, 0⟩
    (compactionBatchLoop keys [] []).map (fun b => (b, compact))

/-! ### Client-side put (`KvControl::KvPut`) -/

/-- Modelled from the spec: `LeaseQuery` (from `kv_control_lease.cc`, not
under `src/`) succeeds exactly when the lease id is present in the
registry (section 4.C: `Query(id)` fails for an unknown lease). -/
def leaseQueryOk (s : KvState) (leaseId : Int) : Bool :=
  s.kvLeaseMap.any (fun p => p.1 = leaseId)

/-- Modelled from the spec: `LeaseAddKeys` (from `kv_control_lease.cc`, not
under `src/`) attaches keys to an existing lease and fails for an unknown
lease (section 4.C: `AddKeys(id, keys)`). -/
def leaseAddKeys (s : KvState) (leaseId : Int) (ks : List Key) :
    KvState × KStatus :=
  match mapGet leaseId s.kvLeaseMap with
  | none => (s, KStatus.err)
  | some l =>
    ({ s with kvLeaseMap := mapPut leaseId { l with keys := l.keys ++ ks } s.kvLeaseMap },
     KStatus.ok)

/-- Mirrors `KvControl::KvPut` (client-side validation; the meta increment
it emits is not part of the state).  `leaseGrantId0` is the incoming value
of the `lease_grant_id` out-parameter. -/
def kvPut (s : KvState) (key : Key) (value : List Nat) (leaseId : Int)
    (ignoreValue ignoreLease : Bool) (leaseGrantId0 : Int) :
    KvState × KStatus :=
  if key.isEmpty then (s, KStatus.err)
  else if key.length > maxKvKeySize then (s, KStatus.err)
  else if ignoreValue = false ∧ value.isEmpty then (s, KStatus.err)
  else if ignoreValue = false ∧ value.length > maxKvValueSize then (s, KStatus.err)
  else if ignoreLease = false ∧ leaseId ≠ 0 ∧ leaseQueryOk s leaseId = false then
    (s, KStatus.err)
  else
    let leaseGrantId1 : Int :=
      if ignoreLease = false ∧ leaseId ≠ 0 then leaseId else leaseGrantId0
    let kvsTemp := (kvRange s key [] 1 false false).1
    let proceed : Int → KvState × KStatus := fun lgid =>
      if lgid ≠ 0 then
        let r := leaseAddKeys s lgid [key]
        match r.2 with
        | KStatus.err => (s, KStatus.err)
        | KStatus.ok => (r.1, KStatus.ok)
      else (s, KStatus.ok)
    if ignoreLease then
      match kvsTemp with
      | [] => (s, KStatus.err)
      | kv0 :: _ => proceed kv0.lease
    else
      match kvsTemp with
      | [] => proceed leaseGrantId1
      | kv0 :: _ =>
        if kv0.lease ≠ leaseId then (s, KStatus.err)
        else proceed kv0.lease

/-! ## Supporting lemmas -/

theorem mapGet_mapPut_self {α β : Type} [DecidableEq α] (k : α) (v : β)
    (l : List (α × β)) : mapGet k (mapPut k v l) = some v := by
  unfold mapGet mapPut
  split
  · rename_i hany
    induction l with
    | nil => simp at hany
    | cons p rest ih =>
      by_cases hp : p.1 = k
      · simp [List.find?, hp]
      · have : rest.any (fun p => decide (p.1 = k)) = true := by
          simp only [List.any_cons] at hany
          rcases Bool.or_eq_true_iff.mp hany with h | h
          · exact absurd (of_decide_eq_true h) hp
          · exact h
        simpa [List.find?, hp] using ih this
  · induction l with
    | nil => simp [List.find?]
    | cons p rest ih =>
      rename_i hany
      have hp : ¬ p.1 = k := by
        intro h
        exact hany (by simp [List.any_cons, h])
      have : ¬ rest.any (fun p => decide (p.1 = k)) = true := by
        intro h
        exact hany (by simp [List.any_cons, h])
      simpa [List.find?, hp] using ih this

theorem mapPut_mapPut_self {α β : Type} [DecidableEq α] (k : α) (v : β)
    (l : List (α × β)) : mapPut k v (mapPut k v l) = mapPut k v l := by
  unfold mapPut
  split
  · rename_i hany
    have hany2 : (l.map (fun p => if p.1 = k then (k, v) else p)).any
        (fun p => decide (p.1 = k)) = true := by
      rw [List.any_map]
      rw [List.any_eq_true] at hany ⊢
      obtain ⟨p, hp, hpk⟩ := hany
      exact ⟨p, hp, by simp [of_decide_eq_true hpk]⟩
    rw [if_pos hany2, List.map_map]
    apply List.map_congr_left
    intro p _
    by_cases hp : p.1 = k <;> simp [hp]
  · rename_i hany
    have hany2 : (l ++ [(k, v)]).any (fun p => decide (p.1 = k)) = true := by
      simp
    rw [if_pos hany2, List.map_append]
    have h1 : l.map (fun p => if p.1 = k then (k, v) else p) = l := by
      conv_rhs => rw [← List.map_id l]
      apply List.map_congr_left
      intro p hp
      have : ¬ p.1 = k := by
        intro h
        exact hany (by rw [List.any_eq_true]; exact ⟨p, hp, by simp [h]⟩)
      simp [this]
    simp [h1]

theorem mapGet_mapErase_self {α β : Type} [DecidableEq α] (k : α)
    (l : List (α × β)) : mapGet k (mapErase k l) = none := by
  unfold mapGet mapErase
  induction l with
  | nil => simp
  | cons p rest ih =>
    by_cases hp : p.1 = k
    · have hf : (List.filter (fun p => decide ¬p.1 = k) (p :: rest)) =
          List.filter (fun p => decide ¬p.1 = k) rest := by
        simp [List.filter, hp]
      rw [hf]
      exact ih
    · have hf : (List.filter (fun p => decide ¬p.1 = k) (p :: rest)) =
          p :: List.filter (fun p => decide ¬p.1 = k) rest := by
        simp [List.filter, hp]
      rw [hf]
      have hfind : List.find? (fun p => decide (p.1 = k))
          (p :: List.filter (fun p => decide ¬p.1 = k) rest) =
          List.find? (fun p => decide (p.1 = k))
            (List.filter (fun p => decide ¬p.1 = k) rest) := by
        simp [List.find?, hp]
      rw [hfind]
      exact ih

/-! ## C2 — KvPutApply rejects a positive unknown lease without mutating -/

theorem kvPutApplyIndexUpdate_lastMod (key : Key) (r : Revision)
    (prev : Option KvIndexInternal) :
    (kvPutApplyIndexUpdate key r prev).2.1 =
      (match prev with | none => (⟨0, 0⟩ : Revision) | some ki => ki.modRevision) := by
  cases prev with
  | none => rfl
  | some ki0 =>
    simp only [kvPutApplyIndexUpdate]
    cases h : ki0.generations.getLast? with
    | none => simp [h]
    | some latest =>
      by_cases hc : latest.createRevision.isSome <;> simp [h, hc]

/-- C2: for every `KvPutApply` whose resolved lease (the supplied `lease_id`
when `ignore_lease` is false, otherwise the lease of the key's previous
`KvRev`) is positive and not present in the lease registry, the apply
returns an error and the state — both maps and the meta-writer log — is
left completely unchanged. -/
theorem C2_kvPutApply_unknown_lease_rejected_no_mutation
    (s : KvState) (key : Key) (opRevision : Revision) (ignoreLease : Bool)
    (leaseId : Int) (ignoreValue : Bool) (value : List Nat)
    (hpos : 0 < resolvedLease s key ignoreLease leaseId)
    (habs : leaseExists s (resolvedLease s key ignoreLease leaseId) = false) :
    kvPutApply s key opRevision ignoreLease leaseId ignoreValue value =
      (s, KStatus.err) := by
  simp only [resolvedLease, kvRevLastOf, lastModRevisionOf, getRawKvRev] at hpos habs
  unfold kvPutApply
  dsimp only
  rw [kvPutApplyIndexUpdate_lastMod]
  rw [if_pos]
  refine ⟨?_, ?_⟩
  · simpa [lastModRevisionOf, getRawKvRev] using hpos
  · simpa [lastModRevisionOf, getRawKvRev] using habs

/-! ## C6 — the compaction task drops every 51st key (code bug) -/

/-- C6 (failing input): with auto-compaction on, retention 0, next revision 1
and 51 keys in the key-index map, the key at index 50 is a known key but is
contained in no issued `KvCompact` batch — the batching loop discards the
key that arrives while the current batch already holds 50 entries. -/
theorem C6_compaction_task_misses_a_key :
    (([50] : Key) ∈ (List.range 51).map (fun i => ([i] : Key))) ∧
    (([50] : Key) ∉
      ((compactionTaskBatches true 0 1
          ((List.range 51).map (fun i => ([i] : Key)))).map (fun b => b.1)).flatten) ∧
    (compactionTaskBatches true 0 1
        ((List.range 51).map (fun i => ([i] : Key)))).length = 1 := by
  decide

/-! ## C8 — KvPut validation of empty values and ignore flags -/

/-- C8 (counterexample): `KvPut` of an empty value with `ignore_value` set
succeeds even though the key has no existing value at all (the state is
empty) — the claim's "accepted only if the key already has an existing
value" fails. -/
theorem C8_counterexample_empty_value_accepted_without_existing :
    mapGet ([107] : Key) (⟨[], [], [], []⟩ : KvState).kvIndexMap = none ∧
    kvPut ⟨[], [], [], []⟩ [107] [] 0 true false 0 =
      (⟨[], [], [], []⟩, KStatus.ok) := by
  constructor
  · rfl
  · rfl

/-- C8 (amended): (a) `KvPut` with an empty value is rejected when
`ignore_value` is false; (b) when `ignore_value` is true an empty value is
accepted even when the key has no existing value — `KvPut` imposes no
existing-value requirement; (c) `KvPut` with `ignore_lease` set is rejected
when the key has no current `KvRev` (the point range read is empty). -/
theorem C8_kvPut_validation :
    (∀ (s : KvState) (key : Key) (leaseId lg0 : Int) (il : Bool),
      kvPut s key [] leaseId false il lg0 = (s, KStatus.err))
    ∧ (∀ (s : KvState) (key : Key) (value : List Nat),
      key ≠ [] → key.length ≤ maxKvKeySize →
      mapGet key s.kvIndexMap = none →
      kvPut s key value 0 true false 0 = (s, KStatus.ok))
    ∧ (∀ (s : KvState) (key : Key) (value : List Nat) (leaseId lg0 : Int)
        (iv : Bool),
      key ≠ [] → key.length ≤ maxKvKeySize →
      (iv = false → value ≠ [] ∧ value.length ≤ maxKvValueSize) →
      (kvRange s key [] 1 false false).1 = [] →
      kvPut s key value leaseId iv true lg0 = (s, KStatus.err)) := by
  refine ⟨?_, ?_, ?_⟩
  · intro s key leaseId lg0 il
    unfold kvPut
    by_cases h1 : key.isEmpty
    · rw [if_pos h1]
    · rw [if_neg h1]
      by_cases h2 : key.length > maxKvKeySize
      · rw [if_pos h2]
      · rw [if_neg h2]
        rw [if_pos ⟨rfl, by simp⟩]
  · intro s key value hkey hlen hget
    unfold kvPut
    rw [if_neg (by simp [hkey]), if_neg (by omega),
        if_neg (by rintro ⟨h, -⟩; cases h),
        if_neg (by rintro ⟨h, -⟩; cases h),
        if_neg (by rintro ⟨-, h, -⟩; exact h rfl)]
    have hkvs : (kvRange s key [] 1 false false).1 = [] := by
      simp [kvRange, kvRangeSelect, getRawKvIndex, hget, kvRangeLoop]
    dsimp only
    rw [hkvs]
    simp
  · intro s key value leaseId lg0 iv hkey hlen hval hkvs
    unfold kvPut
    rw [if_neg (by simp [hkey]), if_neg (by omega),
        if_neg (by rintro ⟨hiv, hv⟩; exact absurd (by simpa using hv) (hval hiv).1),
        if_neg (by rintro ⟨hiv, hv⟩; exact absurd hv (by have := (hval hiv).2; omega)),
        if_neg (by rintro ⟨h, -⟩; cases h)]
    dsimp only
    rw [hkvs]
    simp

/-! ## C1 — KvRange total_count_in_range -/

/-- Concrete live single-key state for the C1 counterexample. -/
def c1Ki : KvIndexInternal := ⟨[97], ⟨1, 0⟩, [⟨some ⟨1, 0⟩, 1, [⟨1, 0⟩]⟩]⟩

/-- Concrete state holding the single live key `[97]`. -/
def c1State : KvState := ⟨[([97], c1Ki)], [], [], []⟩

/-- C1 (counterexample): with `count_only` set, `KvRange` reports
`total_count_in_range = 0` although exactly one key in the full requested
range has a live latest generation — the total is not independent of
`count_only` (it is the size of the returned vector). -/
theorem C1_counterexample_count_only_total_zero :
    (kvRange c1State [97] [0] 0 false true).2 = 0 ∧
    (rangeRawKvIndex c1State [97] [0]).length = 1 := by
  constructor
  · rfl
  · rfl

/-- Members of `rangeRawKvIndex` always pass the liveness filter. -/
theorem rangeRawKvIndex_live (s : KvState) (key rangeEnd : Key) :
    ∀ ki ∈ rangeRawKvIndex s key rangeEnd, hasLiveLatest ki = true := by
  intro ki hki
  unfold rangeRawKvIndex getRangeValues at hki
  simp only [List.mem_map, List.mem_filter] at hki
  obtain ⟨p, ⟨-, hcond⟩, rfl⟩ := hki
  by_cases hl : hasLiveLatest p.2
  · exact hl
  · unfold rangeFilterFn at hcond
    simp [hl] at hcond

/-- When every index is live and resolvable and the limit is never reached,
the `KvRange` loop emits one output record per index. -/
theorem kvRangeLoop_full (s : KvState) (keysOnly : Bool) (limit : Int) :
    ∀ (idxs : List KvIndexInternal) (lc : Int) (acc : List VKv),
    (∀ ki ∈ idxs, hasLiveLatest ki = true) →
    (∀ ki ∈ idxs, (getRawKvRev s ki.modRevision).isSome = true) →
    lc + idxs.length ≤ limit →
    (kvRangeLoop s keysOnly false limit idxs lc acc).length =
      acc.length + idxs.length := by
  intro idxs
  induction idxs with
  | nil => intro lc acc _ _ _; simp [kvRangeLoop]
  | cons ki rest ih =>
    intro lc acc hlive hsome hlim
    have hki : hasLiveLatest ki = true := hlive ki (by simp)
    have hks : (getRawKvRev s ki.modRevision).isSome = true := hsome ki (by simp)
    rw [kvRangeLoop, if_pos hki]
    have hnotgt : ¬ lc + 1 > limit := by
      simp only [List.length_cons] at hlim
      push_cast at hlim
      omega
    rw [if_neg hnotgt]
    simp only [Bool.false_eq_true, if_false]
    obtain ⟨kvRev, hkv⟩ := Option.isSome_iff_exists.mp hks
    rw [hkv]
    have := ih (lc + 1) (acc ++ [mkVKv keysOnly kvRev])
      (fun k hk => hlive k (by simp [hk])) (fun k hk => hsome k (by simp [hk]))
      (by simp only [List.length_cons] at hlim; push_cast at hlim ⊢; omega)
    rw [this]
    simp
    omega

/-- C1 (amended): `total_count_in_range` always equals the size of the
returned vector `kv` — so it is `0` under `count_only` and capped by a
nonzero `limit`; when `count_only` is false, `limit` is `0` (unlimited) and
every selected key's `mod_revision` is present in the revision map, it
equals the number of live keys in the full requested range. -/
theorem C1_total_count_is_returned_size :
    (∀ (s : KvState) (key rangeEnd : Key) (limit : Int) (keysOnly countOnly : Bool),
      (kvRange s key rangeEnd limit keysOnly countOnly).2 =
        ((kvRange s key rangeEnd limit keysOnly countOnly).1.length : Int))
    ∧ (∀ (s : KvState) (key rangeEnd : Key),
      rangeEnd ≠ [] →
      (∀ ki ∈ rangeRawKvIndex s key rangeEnd,
        (getRawKvRev s ki.modRevision).isSome = true) →
      ((rangeRawKvIndex s key rangeEnd).length : Int) < 2 ^ 63 →
      (kvRange s key rangeEnd 0 false false).2 =
        ((rangeRawKvIndex s key rangeEnd).length : Int)) := by
  constructor
  · intro s key rangeEnd limit keysOnly countOnly
    rfl
  · intro s key rangeEnd hre hsome hlen
    have hsel : kvRangeSelect s key rangeEnd = rangeRawKvIndex s key rangeEnd := by
      unfold kvRangeSelect
      rw [if_neg hre]
    unfold kvRange
    dsimp only
    rw [if_pos rfl, hsel]
    rw [kvRangeLoop_full s false (2 ^ 63 - 1) (rangeRawKvIndex s key rangeEnd) 0 []
      (rangeRawKvIndex_live s key rangeEnd) hsome (by omega)]
    simp

/-- Witness for C2 at a concrete input: an empty lease registry and a put
with `lease_id = 5`. -/
theorem C2_witness :
    kvPutApply ⟨[], [], [], []⟩ [107] ⟨1, 0⟩ false 5 false [118] =
      (⟨[], [], [], []⟩, KStatus.err) :=
  C2_kvPutApply_unknown_lease_rejected_no_mutation _ _ _ _ _ _ _
    (by decide) (by decide)

/-- Witness for C8 at concrete inputs exercising all three conjuncts. -/
theorem C8_witness :
    kvPut ⟨[], [], [], []⟩ [107] [] 0 false false 0 =
      (⟨[], [], [], []⟩, KStatus.err) ∧
    kvPut ⟨[], [], [], []⟩ [108] [119] 0 true false 0 =
      (⟨[], [], [], []⟩, KStatus.ok) ∧
    kvPut ⟨[], [], [], []⟩ [109] [119] 0 false true 0 =
      (⟨[], [], [], []⟩, KStatus.err) :=
  ⟨C8_kvPut_validation.1 _ _ _ _ _,
   C8_kvPut_validation.2.1 _ _ _ (by decide) (by decide) (by decide),
   C8_kvPut_validation.2.2 _ _ _ _ _ _ (by decide) (by decide)
     (fun _ => ⟨by decide, by decide⟩) (by decide)⟩

/-- Second concrete live key for the C1 witness. -/
def c1Ki2 : KvIndexInternal := ⟨[98], ⟨2, 0⟩, [⟨some ⟨2, 0⟩, 1, [⟨2, 0⟩]⟩]⟩

/-- Revision record for key `[97]`. -/
def c1Rev1 : KvRevInternal :=
  ⟨revisionToString ⟨1, 0⟩,
   { KvInternal.default with id := [97], value := [49], modRevision := ⟨1, 0⟩ }⟩

/-- Revision record for key `[98]`. -/
def c1Rev2 : KvRevInternal :=
  ⟨revisionToString ⟨2, 0⟩,
   { KvInternal.default with id := [98], value := [50], modRevision := ⟨2, 0⟩ }⟩

/-- Two-live-key state with resolvable revisions for the C1 witness. -/
def c1StateFull : KvState :=
  ⟨[([97], c1Ki), ([98], c1Ki2)],
   [(revisionToString ⟨1, 0⟩, c1Rev1), (revisionToString ⟨2, 0⟩, c1Rev2)],
   [], []⟩

/-- Witness for C1 at a concrete two-key state. -/
theorem C1_witness :
    (kvRange c1StateFull [97] [0] 0 false false).2 =
      ((rangeRawKvIndex c1StateFull [97] [0]).length : Int) :=
  C1_total_count_is_returned_size.2 c1StateFull [97] [0]
    (by decide) (by decide) (by decide)

/-! ## C9 / C10 — the 17-byte revision encoding -/

theorem bytesBE_length : ∀ (w n : Nat), (bytesBE w n).length = w := by
  intro w
  induction w with
  | zero => intro n; rfl
  | succ w ih => intro n; simp [bytesBE, ih]

theorem keyLt_irrefl : ∀ (a : Key), keyLt a a = false := by
  intro a
  induction a with
  | nil => rfl
  | cons x xs ih => simp [keyLt, ih]

theorem keyLt_append_of_length_eq :
    ∀ {a b : Key}, a.length = b.length → ∀ (as bs : Key),
    keyLt (a ++ as) (b ++ bs) =
      (keyLt a b || (decide (a = b) && keyLt as bs)) := by
  intro a
  induction a with
  | nil =>
    intro b h as bs
    cases b with
    | nil => simp [keyLt]
    | cons y ys => simp at h
  | cons x xs ih =>
    intro b h as bs
    cases b with
    | nil => simp at h
    | cons y ys =>
      simp only [List.cons_append, keyLt, List.append_eq]
      rw [ih (by simpa using h) as bs]
      by_cases hxy : x = y
      · subst hxy
        by_cases hxs : xs = ys
        · subst hxs
          simp [keyLt_irrefl, Bool.or_assoc]
        · simp [hxs]
      · have hbe : (x == y) = false := beq_eq_false_iff_ne.mpr hxy
        simp [hbe, hxy]

theorem keyLt_singleton (x y : Nat) : keyLt [x] [y] = decide (x < y) := by
  simp [keyLt]

theorem pow256_div_lt {w n : Nat} (h : n < 256 ^ (w + 1)) : n / 256 < 256 ^ w := by
  rw [pow_succ] at h
  omega

theorem bytesBE_inj : ∀ (w n m : Nat), n < 256 ^ w → m < 256 ^ w →
    bytesBE w n = bytesBE w m → n = m := by
  intro w
  induction w with
  | zero =>
    intro n m hn hm _
    simp [pow_zero] at hn hm
    omega
  | succ w ih =>
    intro n m hn hm h
    have hlen : (bytesBE w (n / 256)).length = (bytesBE w (m / 256)).length := by
      simp [bytesBE_length]
    simp only [bytesBE] at h
    obtain ⟨h1, h2⟩ := List.append_inj h hlen
    have hd := ih _ _ (pow256_div_lt hn) (pow256_div_lt hm) h1
    have hm2 : n % 256 = m % 256 := by simpa using h2
    omega

theorem bytesBE_lt_iff : ∀ (w n m : Nat), n < 256 ^ w → m < 256 ^ w →
    (keyLt (bytesBE w n) (bytesBE w m) = true ↔ n < m) := by
  intro w
  induction w with
  | zero =>
    intro n m hn hm
    simp [pow_zero] at hn hm
    simp [bytesBE, keyLt]
    omega
  | succ w ih =>
    intro n m hn hm
    simp only [bytesBE]
    rw [keyLt_append_of_length_eq (by simp [bytesBE_length])]
    rw [keyLt_singleton]
    simp only [Bool.or_eq_true, Bool.and_eq_true, decide_eq_true_eq]
    rw [ih _ _ (pow256_div_lt hn) (pow256_div_lt hm)]
    have hinj : bytesBE w (n / 256) = bytesBE w (m / 256) ↔ n / 256 = m / 256 :=
      ⟨fun h => bytesBE_inj w _ _ (pow256_div_lt hn) (pow256_div_lt hm) h,
       fun h => by rw [h]⟩
    rw [hinj]
    omega

theorem readNatBE_append_singleton (a : Key) (x : Nat) :
    readNatBE (a ++ [x]) = readNatBE a * 256 + x := by
  simp [readNatBE, List.foldl_append]

theorem readNatBE_bytesBE : ∀ (w n : Nat), n < 256 ^ w →
    readNatBE (bytesBE w n) = n := by
  intro w
  induction w with
  | zero =>
    intro n hn
    simp [pow_zero] at hn
    simp [bytesBE, readNatBE]
    omega
  | succ w ih =>
    intro n hn
    simp only [bytesBE]
    rw [readNatBE_append_singleton, ih _ (pow256_div_lt hn)]
    omega

theorem writeLong_eq_bytesBE (v : Int) (h0 : 0 ≤ v) (h1 : v < 2 ^ 63) :
    writeLong v = bytesBE 8 v.toNat := by
  unfold writeLong
  congr 1
  have : v.emod (2 ^ 64) = v := Int.emod_eq_of_lt h0 (by norm_num; omega)
  rw [this]

theorem toNat_lt_pow256_8 {v : Int} (h1 : v < 2 ^ 63) : v.toNat < 256 ^ 8 := by
  have h : (256 : Nat) ^ 8 = 18446744073709551616 := by norm_num
  have h2 : (2 : Int) ^ 63 = 9223372036854775808 := by norm_num
  omega

/-- C9: for revisions whose components are in the nonnegative int64 range,
`RevisionToString` produces exactly 17 bytes and is strictly monotone:
byte-lexicographic order on the encodings coincides with numeric order on
the `(main, sub)` pairs. -/
theorem C9_revisionToString_length_and_order (r1 r2 : Revision)
    (h1a : 0 ≤ r1.main) (h1b : r1.main < 2 ^ 63)
    (h1c : 0 ≤ r1.sub) (h1d : r1.sub < 2 ^ 63)
    (h2a : 0 ≤ r2.main) (h2b : r2.main < 2 ^ 63)
    (h2c : 0 ≤ r2.sub) (h2d : r2.sub < 2 ^ 63) :
    (revisionToString r1).length = 17 ∧
    (keyLt (revisionToString r1) (revisionToString r2) = true ↔ revLt r1 r2) := by
  constructor
  · simp [revisionToString, writeLong, bytesBE_length]
  · unfold revisionToString
    rw [writeLong_eq_bytesBE _ h1a h1b, writeLong_eq_bytesBE _ h1c h1d,
        writeLong_eq_bytesBE _ h2a h2b, writeLong_eq_bytesBE _ h2c h2d]
    rw [keyLt_append_of_length_eq (by simp [bytesBE_length]),
        keyLt_append_of_length_eq (by simp [bytesBE_length])]
    simp only [keyLt_irrefl, Bool.and_false, Bool.or_false, List.append_left_inj]
    simp only [Bool.or_eq_true, Bool.and_eq_true, decide_eq_true_eq]
    rw [bytesBE_lt_iff 8 _ _ (toNat_lt_pow256_8 h1b) (toNat_lt_pow256_8 h2b)]
    rw [bytesBE_lt_iff 8 _ _ (toNat_lt_pow256_8 h1d) (toNat_lt_pow256_8 h2d)]
    have hinj : bytesBE 8 r1.main.toNat = bytesBE 8 r2.main.toNat ↔
        r1.main = r2.main := by
      constructor
      · intro h
        have := bytesBE_inj 8 _ _ (toNat_lt_pow256_8 h1b) (toNat_lt_pow256_8 h2b) h
        omega
      · intro h
        rw [h]
    rw [hinj]
    unfold revLt
    omega

/-- Witness for C9 at the concrete revisions (1,2) and (1,3). -/
theorem C9_witness :
    (revisionToString ⟨1, 2⟩).length = 17 ∧
    (keyLt (revisionToString ⟨1, 2⟩) (revisionToString ⟨1, 3⟩) = true ↔
      revLt ⟨1, 2⟩ ⟨1, 3⟩) :=
  C9_revisionToString_length_and_order ⟨1, 2⟩ ⟨1, 3⟩
    (by norm_num) (by norm_num) (by norm_num) (by norm_num)
    (by norm_num) (by norm_num) (by norm_num) (by norm_num)

/-- C10: the revision serialization round-trips for every revision with
nonnegative int64 components, and every input whose length is not 17
decodes to the zero revision. -/
theorem C10_stringToRevision_roundtrip :
    (∀ r : Revision, 0 ≤ r.main → r.main < 2 ^ 63 → 0 ≤ r.sub → r.sub < 2 ^ 63 →
      stringToRevision (revisionToString r) = r)
    ∧ (∀ s : Key, s.length ≠ 17 → stringToRevision s = ⟨0, 0⟩) := by
  constructor
  · intro r ha hb hc hd
    have hlen : (revisionToString r).length = 17 := by
      simp [revisionToString, writeLong, bytesBE_length]
    unfold stringToRevision
    rw [if_neg (by rw [hlen]; simp)]
    have hform : revisionToString r =
        bytesBE 8 r.main.toNat ++ ((95 : Nat) :: bytesBE 8 r.sub.toNat) := by
      unfold revisionToString
      rw [writeLong_eq_bytesBE _ ha hb, writeLong_eq_bytesBE _ hc hd]
      simp [List.append_assoc]
    rw [hform]
    have htake : (bytesBE 8 r.main.toNat ++ ((95 : Nat) :: bytesBE 8 r.sub.toNat)).take 8 =
        bytesBE 8 r.main.toNat := by
      rw [List.take_left' (bytesBE_length 8 r.main.toNat)]
    have hdrop : (bytesBE 8 r.main.toNat ++ ((95 : Nat) :: bytesBE 8 r.sub.toNat)).drop 9 =
        bytesBE 8 r.sub.toNat := by
      have hassoc : bytesBE 8 r.main.toNat ++ ((95 : Nat) :: bytesBE 8 r.sub.toNat) =
          (bytesBE 8 r.main.toNat ++ [95]) ++ bytesBE 8 r.sub.toNat := by
        simp
      rw [hassoc]
      rw [List.drop_left' (by simp [bytesBE_length])]
    rw [htake, hdrop]
    have htake2 : (bytesBE 8 r.sub.toNat).take 8 = bytesBE 8 r.sub.toNat := by
      apply List.take_of_length_le
      rw [bytesBE_length]
    rw [htake2]
    have hrl : ∀ (v : Int), 0 ≤ v → v < 2 ^ 63 → readLong (bytesBE 8 v.toNat) = v := by
      intro v h0 h1
      unfold readLong
      rw [readNatBE_bytesBE 8 _ (toNat_lt_pow256_8 h1)]
      rw [if_pos (by norm_num; omega)]
      omega
    rw [hrl _ ha hb, hrl _ hc hd]
  · intro s h
    unfold stringToRevision
    rw [if_pos h]

/-- Witness for C10 at the concrete revision (5,7) and a short input. -/
theorem C10_witness :
    stringToRevision (revisionToString ⟨5, 7⟩) = ⟨5, 7⟩ ∧
    stringToRevision [1, 2, 3] = ⟨0, 0⟩ :=
  ⟨C10_stringToRevision_roundtrip.1 ⟨5, 7⟩
     (by norm_num) (by norm_num) (by norm_num) (by norm_num),
   C10_stringToRevision_roundtrip.2 [1, 2, 3] (by decide)⟩

/-! ## C5 — range lookup semantics -/

/-- Whether key `k` currently has a live (non-tombstoned, nonempty) latest
generation in the key-index map. -/
def liveAt (s : KvState) (k : Key) : Bool :=
  match mapGet k s.kvIndexMap with
  | none => false
  | some ki => hasLiveLatest ki

/-- Well-keyedness of the key-index map: every stored `KvIndexInternal`
carries its own map key in its `id` field (as `PutRawKvIndex` maintains). -/
def wellKeyed (s : KvState) : Prop :=
  ∀ p ∈ s.kvIndexMap, p.2.id = p.1

/-- The key-index map holds at most one entry per key. -/
def nodupKeys (s : KvState) : Prop :=
  (s.kvIndexMap.map (fun p => p.1)).Nodup

instance (s : KvState) : Decidable (wellKeyed s) := by
  unfold wellKeyed; infer_instance

instance (s : KvState) : Decidable (nodupKeys s) := by
  unfold nodupKeys; infer_instance

/-- Keys of the live index entries a range lookup resolves: the index
selection of `KvRange` restricted to live entries — exactly the keys the
`KvRange` loop then reports. -/
def rangeLiveKeys (s : KvState) (key rangeEnd : Key) : List Key :=
  ((kvRangeSelect s key rangeEnd).filter hasLiveLatest).map (fun ki => ki.id)

theorem mapGet_mem {α β : Type} [DecidableEq α] {k : α} {v : β}
    {l : List (α × β)} (h : mapGet k l = some v) : (k, v) ∈ l := by
  unfold mapGet at h
  obtain ⟨p, hf, hv⟩ := Option.map_eq_some'.mp h
  have hp1 : p.1 = k := by
    have h2 := List.find?_some hf
    simpa using h2
  have hpmem := List.mem_of_find?_eq_some hf
  obtain ⟨p1, p2⟩ := p
  simp only at hp1 hv
  rw [← hp1, ← hv]
  exact hpmem

theorem mem_mapGet {α β : Type} [DecidableEq α] {k : α} {v : β}
    {l : List (α × β)} (hnd : (l.map (fun p => p.1)).Nodup)
    (h : (k, v) ∈ l) : mapGet k l = some v := by
  induction l with
  | nil => simp at h
  | cons p rest ih =>
    simp only [List.map_cons, List.nodup_cons] at hnd
    obtain ⟨hp_nin, hnd'⟩ := hnd
    rcases List.mem_cons.mp h with heq | hmem
    · rw [← heq]
      unfold mapGet
      simp [List.find?]
    · have hk_ne : ¬ p.1 = k := by
        intro he
        exact hp_nin (he ▸ (List.mem_map.mpr ⟨(k, v), hmem, rfl⟩))
      unfold mapGet
      rw [show List.find? (fun q => decide (q.1 = k)) (p :: rest) =
            List.find? (fun q => decide (q.1 = k)) rest from by
          simp [List.find?, hk_ne]]
      simpa [mapGet] using ih hnd' hmem

theorem liveAt_of_get {s : KvState} {k : Key} {ki : KvIndexInternal}
    (hget : mapGet k s.kvIndexMap = some ki) : liveAt s k = hasLiveLatest ki := by
  unfold liveAt
  rw [hget]

theorem liveAt_of_get_none {s : KvState} {k : Key}
    (hget : mapGet k s.kvIndexMap = none) : liveAt s k = false := by
  unfold liveAt
  rw [hget]

theorem mem_getRangeValues {m : List (Key × KvIndexInternal)}
    {lower upper : Key} {F : KvIndexInternal → Bool} {v : KvIndexInternal} :
    v ∈ getRangeValues m lower upper F ↔
      ∃ p, p ∈ m ∧ keyLt p.1 lower = false ∧ keyLt p.1 upper = true ∧
        F p.2 = true ∧ p.2 = v := by
  unfold getRangeValues
  rw [List.mem_map]
  constructor
  · rintro ⟨p, hp, rfl⟩
    rw [List.mem_filter] at hp
    obtain ⟨hm, hc⟩ := hp
    simp only [Bool.and_eq_true, Bool.not_eq_true'] at hc
    exact ⟨p, hm, hc.1.1, hc.1.2, hc.2, rfl⟩
  · rintro ⟨p, hm, ha, hb, hcf, rfl⟩
    exact ⟨p, List.mem_filter.mpr ⟨hm, by simp [ha, hb, hcf]⟩, rfl⟩

theorem mem_rangeLiveKeys_ne (s : KvState) (key rangeEnd k' : Key)
    (hw : wellKeyed s) (hn : nodupKeys s) (hne : rangeEnd ≠ []) :
    k' ∈ rangeLiveKeys s key rangeEnd ↔
      (liveAt s k' = true ∧ keyLt k' key = false ∧
       keyLt k' (rangeUpperBound key rangeEnd) = true ∧
       (if rangeEnd = [0] then !(keyLt k' key)
        else !(keyLt k' key) && keyLt k' rangeEnd) = true) := by
  unfold rangeLiveKeys
  rw [List.mem_map]
  constructor
  · rintro ⟨ki, hki, rfl⟩
    rw [List.mem_filter] at hki
    obtain ⟨hsel, hlive⟩ := hki
    unfold kvRangeSelect at hsel
    rw [if_neg hne] at hsel
    unfold rangeRawKvIndex at hsel
    rw [mem_getRangeValues] at hsel
    obtain ⟨p, hm, ha, hb, hcf, rfl⟩ := hsel
    have hid : p.2.id = p.1 := hw p hm
    have hmem : (p.1, p.2) ∈ s.kvIndexMap := by simpa using hm
    have hget : mapGet p.1 s.kvIndexMap = some p.2 := mem_mapGet hn hmem
    unfold rangeFilterFn at hcf
    rw [if_neg (by simp [hlive]), if_neg hne] at hcf
    refine ⟨?_, ?_, ?_, ?_⟩
    · rw [hid, liveAt_of_get hget]
      exact hlive
    · rw [hid]; exact ha
    · rw [hid]; exact hb
    · exact hcf
  · rintro ⟨hlv, ha, hb, hcf⟩
    cases hget : mapGet k' s.kvIndexMap with
    | none => rw [liveAt_of_get_none hget] at hlv; cases hlv
    | some ki =>
      rw [liveAt_of_get hget] at hlv
      have hmem := mapGet_mem hget
      have hid : ki.id = k' := hw (k', ki) hmem
      refine ⟨ki, ?_, hid⟩
      rw [List.mem_filter]
      refine ⟨?_, hlv⟩
      unfold kvRangeSelect
      rw [if_neg hne]
      unfold rangeRawKvIndex
      rw [mem_getRangeValues]
      refine ⟨(k', ki), hmem, ha, hb, ?_, rfl⟩
      unfold rangeFilterFn
      rw [if_neg (by simp [hlv]), if_neg hne]
      simpa [hid] using hcf

/-- C5 (amended): the keys resolved by a range lookup.  With
`range_end = 0x00` the result contains exactly the live keys `k ≥ key` that
are also lexicographically below the scan upper bound of `max_kv_key_size`
`0xff` bytes (so the single maximal key of 4096 `0xff` bytes is excluded);
with empty `range_end` it is a point lookup of `key` alone; otherwise it
contains exactly the live keys of the half-open range `[key, range_end)`. -/
theorem C5_range_lookup_semantics (s : KvState) (key rangeEnd k' : Key)
    (hw : wellKeyed s) (hn : nodupKeys s) :
    (rangeEnd = [0] →
      (k' ∈ rangeLiveKeys s key rangeEnd ↔
        liveAt s k' = true ∧ keyLt k' key = false ∧
        keyLt k' (List.replicate maxKvKeySize 255) = true))
    ∧ (rangeEnd = [] →
      (k' ∈ rangeLiveKeys s key rangeEnd ↔ k' = key ∧ liveAt s key = true))
    ∧ (rangeEnd ≠ [] → rangeEnd ≠ [0] →
      (k' ∈ rangeLiveKeys s key rangeEnd ↔
        liveAt s k' = true ∧ keyLt k' key = false ∧
        keyLt k' rangeEnd = true)) := by
  refine ⟨?_, ?_, ?_⟩
  · rintro rfl
    rw [mem_rangeLiveKeys_ne s key [0] k' hw hn (by simp)]
    unfold rangeUpperBound
    rw [if_pos rfl, if_pos rfl]
    constructor
    · rintro ⟨h1, h2, h3, -⟩
      exact ⟨h1, h2, h3⟩
    · rintro ⟨h1, h2, h3⟩
      exact ⟨h1, h2, h3, by simp [h2]⟩
  · rintro rfl
    unfold rangeLiveKeys kvRangeSelect getRawKvIndex
    rw [if_pos rfl]
    cases hget : mapGet key s.kvIndexMap with
    | none =>
      simp only [List.filter_nil, List.map_nil, List.not_mem_nil, false_iff]
      rintro ⟨rfl, hlive⟩
      rw [liveAt_of_get_none hget] at hlive
      cases hlive
    | some ki =>
      have hid : ki.id = key := hw (key, ki) (mapGet_mem hget)
      by_cases hl : hasLiveLatest ki = true
      · rw [show List.filter hasLiveLatest [ki] = [ki] from by simp [hl]]
        simp only [List.map_cons, List.map_nil, List.mem_singleton]
        constructor
        · rintro rfl
          refine ⟨hid, ?_⟩
          rw [liveAt_of_get hget]
          exact hl
        · rintro ⟨rfl, -⟩
          exact hid.symm
      · rw [show List.filter hasLiveLatest [ki] = [] from by
            simp [Bool.eq_false_iff.mpr hl]]
        simp only [List.map_nil, List.not_mem_nil, false_iff]
        rintro ⟨rfl, hlive⟩
        rw [liveAt_of_get hget] at hlive
        exact hl hlive
  · intro hne hne0
    rw [mem_rangeLiveKeys_ne s key rangeEnd k' hw hn hne]
    unfold rangeUpperBound
    rw [if_neg hne0, if_neg hne, if_neg hne0]
    constructor
    · rintro ⟨h1, h2, h3, -⟩
      exact ⟨h1, h2, h3⟩
    · rintro ⟨h1, h2, h3⟩
      exact ⟨h1, h2, h3, by simp [h2, h3]⟩

/-- Largest legal key: `max_kv_key_size` bytes of `0xff`. -/
def ffKey : Key := List.replicate 4096 255

/-- Live index entry stored under the maximal key. -/
def c5Ki : KvIndexInternal := ⟨ffKey, ⟨1, 0⟩, [⟨some ⟨1, 0⟩, 1, [⟨1, 0⟩]⟩]⟩

/-- State holding only the maximal key, live. -/
def c5State : KvState := ⟨[(ffKey, c5Ki)], [], [], []⟩

/-- C5 (counterexample): the key of 4096 `0xff` bytes is live and satisfies
`k ≥ key`, yet a lookup with `range_end = 0x00` starting at that very key
returns nothing: the claimed "no upper bound" is actually the scan bound of
`max_kv_key_size` `0xff` bytes, which excludes this key. -/
theorem C5_counterexample_max_key_excluded :
    liveAt c5State ffKey = true ∧
    keyLt ffKey ffKey = false ∧
    rangeLiveKeys c5State ffKey [0] = [] := by
  have hget : mapGet ffKey c5State.kvIndexMap = some c5Ki := by
    unfold mapGet c5State
    simp [List.find?]
  refine ⟨?_, keyLt_irrefl ffKey, ?_⟩
  · rw [liveAt_of_get hget]
    rfl
  · unfold rangeLiveKeys kvRangeSelect
    rw [if_neg (by simp)]
    unfold rangeRawKvIndex
    have hub : rangeUpperBound ffKey [0] = ffKey := by
      unfold rangeUpperBound
      rw [if_pos rfl]
      rfl
    rw [hub]
    unfold getRangeValues c5State
    simp [keyLt_irrefl]

/-- Live single-key state for the C5 witness. -/
def c5WState : KvState :=
  ⟨[([97], ⟨[97], ⟨1, 0⟩, [⟨some ⟨1, 0⟩, 1, [⟨1, 0⟩]⟩]⟩)], [], [], []⟩

/-- Witness for C5 at a concrete single-key state and a point lookup. -/
theorem C5_witness :
    ([97] ∈ rangeLiveKeys c5WState [97] [] ↔
      ([97] : Key) = [97] ∧ liveAt c5WState [97] = true) :=
  (C5_range_lookup_semantics c5WState [97] [] [97] (by decide) (by decide)).2.1 rfl

/-! ## C7 — compaction at a fixed revision is idempotent -/

/-- Every revision of the generation has `main ≥ compact.main`, the
generation is open and its revision list nonempty. -/
def genFullGe (compact : Revision) (g : Generation) : Prop :=
  g.createRevision.isSome = true ∧ g.revisions ≠ [] ∧
  ∀ rv ∈ g.revisions, ¬ rv.main < compact.main

/-- Like `genFullGe`, but only the revisions before the last one need
`main ≥ compact.main` (the last is the always-retained latest value). -/
def genFrontGe (compact : Revision) (g : Generation) : Prop :=
  g.createRevision.isSome = true ∧ g.revisions ≠ [] ∧
  ∀ rv ∈ g.revisions.dropLast, ¬ rv.main < compact.main

theorem compactHistLoop_acc_ne (compact : Revision) :
    ∀ (rest : List Generation) (a : Generation) (acc : List Generation)
      (dels : List Revision),
    compactHistLoop compact rest (a :: acc) dels = ((a :: acc) ++ rest, dels) := by
  intro rest
  induction rest with
  | nil => intro a acc dels; simp [compactHistLoop]
  | cons g r ih =>
    intro a acc dels
    rw [show compactHistLoop compact (g :: r) (a :: acc) dels =
        compactHistLoop compact r (a :: (acc ++ [g])) dels from rfl]
    rw [ih]
    simp

theorem compactHistLoop_shape (compact : Revision) :
    ∀ (hist : List Generation) (dels0 : List Revision),
    (compactHistLoop compact hist [] dels0).1 = [] ∨
    ∃ h t, (compactHistLoop compact hist [] dels0).1 = h :: t ∧
      genFullGe compact h := by
  intro hist
  induction hist with
  | nil => intro dels0; left; rfl
  | cons g rest ih =>
    intro dels0
    by_cases hc : g.createRevision.isSome
    · by_cases hk : (g.revisions.filter
          (fun rv => !(decide (rv.main < compact.main)))).isEmpty
      · rw [show compactHistLoop compact (g :: rest) [] dels0 =
            compactHistLoop compact rest []
              (dels0 ++ g.revisions.filter (fun rv => decide (rv.main < compact.main)))
            from by
          simp only [compactHistLoop]
          rw [if_pos hc, if_pos hk]]
        exact ih _
      · rw [show compactHistLoop compact (g :: rest) [] dels0 =
            compactHistLoop compact rest
              [⟨g.createRevision, g.verison,
                g.revisions.filter (fun rv => !(decide (rv.main < compact.main)))⟩]
              (dels0 ++ g.revisions.filter (fun rv => decide (rv.main < compact.main)))
            from by
          simp only [compactHistLoop]
          rw [if_pos hc, if_neg hk]]
        rw [compactHistLoop_acc_ne]
        right
        refine ⟨_, rest, rfl, hc, by simpa using hk, ?_⟩
        intro rv hrv
        simpa using List.of_mem_filter hrv
    · rw [show compactHistLoop compact (g :: rest) [] dels0 =
          compactHistLoop compact rest [] dels0 from by
        simp only [compactHistLoop]
        rw [if_neg hc]]
      exact ih _

theorem compactGens_eq_none (compact : Revision) {gens : List Generation}
    (hlast : gens.getLast? = none) : compactGens compact gens = ([], []) := by
  unfold compactGens
  rw [hlast]

theorem compactGens_eq_some (compact : Revision) {gens : List Generation}
    {latest : Generation} (hlast : gens.getLast? = some latest) :
    compactGens compact gens =
      compactLatest compact latest
        (compactHistLoop compact gens.dropLast [] []).1
        (compactHistLoop compact gens.dropLast [] []).2 := by
  unfold compactGens
  rw [hlast]

theorem compactLatest_nil_open (compact : Revision) (latest : Generation)
    (dels : List Revision) (hsome : latest.createRevision.isSome = true)
    (lastRv : Revision) (hlast : latest.revisions.getLast? = some lastRv) :
    compactLatest compact latest [] dels =
      ([⟨latest.createRevision, latest.verison,
         latest.revisions.dropLast.filter
           (fun rv => !(decide (rv.main < compact.main))) ++ [lastRv]⟩],
       dels ++ latest.revisions.dropLast.filter
         (fun rv => decide (rv.main < compact.main))) := by
  simp only [compactLatest]
  rw [if_pos hsome, hlast]

theorem compactLatest_nil_open_empty (compact : Revision) (latest : Generation)
    (dels : List Revision) (hsome : latest.createRevision.isSome = true)
    (hlast : latest.revisions.getLast? = none) :
    compactLatest compact latest [] dels = ([], dels) := by
  simp only [compactLatest]
  rw [if_pos hsome, hlast]

theorem compactLatest_nil_tomb (compact : Revision) (latest : Generation)
    (dels : List Revision) (hsome : latest.createRevision.isSome = false) :
    compactLatest compact latest [] dels = ([], dels) := by
  simp only [compactLatest]
  rw [if_neg (by simp [hsome])]

theorem compactLatest_cons (compact : Revision) (latest a : Generation)
    (acc : List Generation) (dels : List Revision) :
    compactLatest compact latest (a :: acc) dels = ((a :: acc) ++ [latest], dels) :=
  rfl

theorem compactGens_singleton_stable (compact : Revision) (g : Generation)
    (hg : genFrontGe compact g) : compactGens compact [g] = ([g], []) := by
  obtain ⟨hsome, hne, hfront⟩ := hg
  obtain ⟨lastRv, hlast⟩ : ∃ x, g.revisions.getLast? = some x := by
    cases hx : g.revisions.getLast? with
    | none => exact absurd (List.getLast?_eq_none_iff.mp hx) hne
    | some x => exact ⟨x, rfl⟩
  rw [compactGens_eq_some compact (show ([g] : List Generation).getLast? = some g from rfl)]
  rw [show (([g] : List Generation).dropLast) = [] from rfl]
  rw [show compactHistLoop compact [] [] [] = ([], []) from rfl]
  rw [compactLatest_nil_open compact g [] hsome lastRv hlast]
  have hfilter : g.revisions.dropLast.filter
      (fun rv => !(decide (rv.main < compact.main))) = g.revisions.dropLast := by
    apply List.filter_eq_self.mpr
    intro rv hrv
    simpa using hfront rv hrv
  have hdropped : g.revisions.dropLast.filter
      (fun rv => decide (rv.main < compact.main)) = [] := by
    apply List.filter_eq_nil_iff.mpr
    intro rv hrv
    simpa using hfront rv hrv
  have hlastval : lastRv = g.revisions.getLast hne := by
    have := List.getLast?_eq_getLast g.revisions hne
    rw [this] at hlast
    exact (Option.some_inj.mp hlast).symm
  rw [hfilter, hdropped, hlastval, List.dropLast_append_getLast hne]
  rfl

theorem compactGens_cons_stable (compact : Revision) (h : Generation)
    (t : List Generation) (hh : genFullGe compact h) :
    compactGens compact (h :: t) = (h :: t, []) := by
  obtain ⟨hsome, hne, hfull⟩ := hh
  have hfilter : h.revisions.filter
      (fun rv => !(decide (rv.main < compact.main))) = h.revisions := by
    apply List.filter_eq_self.mpr
    intro rv hrv
    simpa using hfull rv hrv
  have hdropped : h.revisions.filter
      (fun rv => decide (rv.main < compact.main)) = [] := by
    apply List.filter_eq_nil_iff.mpr
    intro rv hrv
    simpa using hfull rv hrv
  rcases List.eq_nil_or_concat t with rfl | ⟨ts, lastG, rfl⟩
  · apply compactGens_singleton_stable
    exact ⟨hsome, hne, fun rv hrv => hfull rv (List.dropLast_subset _ hrv)⟩
  · simp only [List.concat_eq_append]
    have hcons : h :: (ts ++ [lastG]) = (h :: ts) ++ [lastG] := by simp
    rw [compactGens_eq_some compact
      (show (h :: (ts ++ [lastG])).getLast? = some lastG from by
        rw [hcons]; exact List.getLast?_concat _)]
    rw [show (h :: (ts ++ [lastG])).dropLast = h :: ts from by
      rw [hcons]; exact List.dropLast_concat]
    have hhist : compactHistLoop compact (h :: ts) [] [] = (h :: ts, []) := by
      rw [show compactHistLoop compact (h :: ts) [] [] =
          compactHistLoop compact ts
            [⟨h.createRevision, h.verison,
              h.revisions.filter (fun rv => !(decide (rv.main < compact.main)))⟩]
            ([] ++ h.revisions.filter (fun rv => decide (rv.main < compact.main)))
          from by
        simp only [compactHistLoop]
        rw [if_pos hsome, if_neg (by simpa [hfilter] using hne)]]
      rw [compactHistLoop_acc_ne]
      rw [hfilter, hdropped]
      rfl
    rw [hhist]
    rw [compactLatest_cons]
    simp

theorem compactGens_idempotent (compact : Revision) (gens : List Generation)
    (hne : (compactGens compact gens).1 ≠ []) :
    compactGens compact (compactGens compact gens).1 =
      ((compactGens compact gens).1, []) := by
  cases hg : gens.getLast? with
  | none =>
    rw [compactGens_eq_none compact hg] at hne
    exact absurd rfl hne
  | some latest =>
    have hrw := compactGens_eq_some compact hg
    rcases compactHistLoop_shape compact gens.dropLast [] with hacc | ⟨h, t, hacc, hfull⟩
    · rw [hrw, hacc] at hne ⊢
      by_cases hl : latest.createRevision.isSome
      · cases hlast : latest.revisions.getLast? with
        | none =>
          rw [compactLatest_nil_open_empty compact latest _ hl hlast] at hne
          exact absurd rfl hne
        | some lastRv =>
          rw [compactLatest_nil_open compact latest _ hl lastRv hlast]
          apply compactGens_singleton_stable
          refine ⟨hl, by simp, ?_⟩
          intro rv hrv
          rw [List.dropLast_concat] at hrv
          simpa using List.of_mem_filter hrv
      · rw [compactLatest_nil_tomb compact latest _
          (Bool.not_eq_true _ ▸ hl)] at hne
        exact absurd rfl hne
    · rw [hrw, hacc] at hne ⊢
      rw [compactLatest_cons]
      rw [show (h :: t) ++ [latest] = h :: (t ++ [latest]) from by simp]
      exact compactGens_cons_stable compact h (t ++ [latest]) hfull

theorem foldl_deleteRawKvRev_kvIndexMap :
    ∀ (dels : List Revision) (s : KvState),
    (dels.foldl (fun st rv => deleteRawKvRev rv st) s).kvIndexMap =
      s.kvIndexMap := by
  intro dels
  induction dels with
  | nil => intro s; rfl
  | cons d rest ih =>
    intro s
    rw [List.foldl_cons, ih]
    rfl

/-- C7: compaction at a fixed revision is idempotent — a second
`KvCompactApply` at the same key and revision leaves both the key-index map
and the revision map exactly as the first left them. -/
theorem C7_kvCompactApply_idempotent (s : KvState) (key : Key) (compact : Revision) :
    (kvCompactApply (kvCompactApply s key compact).1 key compact).1.kvIndexMap =
      (kvCompactApply s key compact).1.kvIndexMap ∧
    (kvCompactApply (kvCompactApply s key compact).1 key compact).1.kvRevMap =
      (kvCompactApply s key compact).1.kvRevMap := by
  cases h0 : mapGet key s.kvIndexMap with
  | none =>
    have hfirst : kvCompactApply s key compact = (s, KStatus.err) := by
      unfold kvCompactApply
      rw [h0]
    rw [hfirst]
    dsimp only
    rw [hfirst]
    exact ⟨rfl, rfl⟩
  | some ki =>
    cases h1 : ki.generations.getLast? with
    | none =>
      have hfirst : kvCompactApply s key compact = (s, KStatus.ok) := by
        unfold kvCompactApply
        rw [h0]
        dsimp only
        rw [h1]
      rw [hfirst]
      dsimp only
      rw [hfirst]
      exact ⟨rfl, rfl⟩
    | some latest =>
      have hfirst : kvCompactApply s key compact =
          ((compactGens compact ki.generations).2.foldl
            (fun st rv => deleteRawKvRev rv st)
            (if (compactGens compact ki.generations).1.isEmpty then
              deleteRawKvIndex key s
             else putRawKvIndex key
              { ki with generations := (compactGens compact ki.generations).1 } s),
           KStatus.ok) := by
        unfold kvCompactApply
        rw [h0]
        dsimp only
        rw [h1]
      cases hng : (compactGens compact ki.generations).1 with
      | nil =>
        rw [hfirst, hng]
        rw [if_pos (show (([] : List Generation).isEmpty = true) from rfl)]
        have hsecond : kvCompactApply ((compactGens compact ki.generations).2.foldl
            (fun st rv => deleteRawKvRev rv st) (deleteRawKvIndex key s)) key compact =
            (((compactGens compact ki.generations).2.foldl
              (fun st rv => deleteRawKvRev rv st) (deleteRawKvIndex key s)),
             KStatus.err) := by
          unfold kvCompactApply
          rw [show mapGet key ((compactGens compact ki.generations).2.foldl
              (fun st rv => deleteRawKvRev rv st)
              (deleteRawKvIndex key s)).kvIndexMap = none from by
            rw [show ((compactGens compact ki.generations).2.foldl
                (fun st rv => deleteRawKvRev rv st)
                (deleteRawKvIndex key s)).kvIndexMap =
                mapErase key s.kvIndexMap from by
              rw [foldl_deleteRawKvRev_kvIndexMap]
              rfl]
            exact mapGet_mapErase_self key _]
        rw [hsecond]
        exact ⟨rfl, rfl⟩
      | cons h t =>
        have hne : (compactGens compact ki.generations).1 ≠ [] := by
          rw [hng]
          simp
        have hstab : compactGens compact (h :: t) = (h :: t, []) := by
          have := compactGens_idempotent compact ki.generations hne
          rwa [hng] at this
        rw [hfirst, hng]
        rw [if_neg (show ¬ (((h :: t) : List Generation).isEmpty = true) from by simp)]
        set ki' : KvIndexInternal := { ki with generations := h :: t } with hki'
        set sF : KvState := (compactGens compact ki.generations).2.foldl
          (fun st rv => deleteRawKvRev rv st) (putRawKvIndex key ki' s) with hsF
        have hmapF : sF.kvIndexMap = mapPut key ki' s.kvIndexMap := by
          rw [hsF, foldl_deleteRawKvRev_kvIndexMap]
          rfl
        have hgetF : mapGet key sF.kvIndexMap = some ki' := by
          rw [hmapF]
          exact mapGet_mapPut_self key ki' s.kvIndexMap
        have hgensF : ki'.generations = h :: t := rfl
        obtain ⟨lg, hlg⟩ : ∃ lg, ki'.generations.getLast? = some lg := by
          rw [hgensF]
          cases hx : (h :: t).getLast? with
          | none => simp at hx
          | some lg => exact ⟨lg, rfl⟩
        have hsecond : kvCompactApply sF key compact =
            ((compactGens compact ki'.generations).2.foldl
              (fun st rv => deleteRawKvRev rv st)
              (if (compactGens compact ki'.generations).1.isEmpty then
                deleteRawKvIndex key sF
               else putRawKvIndex key
                { ki' with generations := (compactGens compact ki'.generations).1 } sF),
             KStatus.ok) := by
          unfold kvCompactApply
          rw [hgetF]
          dsimp only
          rw [hlg]
        rw [hsecond, hgensF, hstab]
        rw [if_neg (show ¬ (((h :: t) : List Generation).isEmpty = true) from by simp)]
        rw [List.foldl_nil]
        constructor
        · show (putRawKvIndex key { ki' with generations := h :: t } sF).kvIndexMap =
            sF.kvIndexMap
          have hki'' : { ki' with generations := h :: t } = ki' := rfl
          rw [hki'']
          show mapPut key ki' sF.kvIndexMap = sF.kvIndexMap
          rw [hmapF]
          exact mapPut_mapPut_self key ki' s.kvIndexMap
        · rfl

/-! ## C3 — what KvCompactApply retains and erases -/

/-- Concatenation of all revision lists of a generation sequence, in
order. -/
def flatRevisions (gens : List Generation) : List Revision :=
  (gens.map (fun g => g.revisions)).flatten

/-- The `main` components of the revision list are nondecreasing. -/
def mainsNondecreasing : List Revision → Bool
  | [] => true
  | [_] => true
  | a :: b :: rest => decide (a.main ≤ b.main) && mainsNondecreasing (b :: rest)

/-- Well-formedness of a stored KeyIndex, as put/delete applies maintain it:
at least one generation; every non-final generation open with a nonempty
revision list; the final generation nonempty when open and empty when a
tombstone; and revision `main`s nondecreasing across the whole history. -/
def wfKeyIndex (ki : KvIndexInternal) : Bool :=
  match ki.generations.getLast? with
  | none => false
  | some lastG =>
    ki.generations.dropLast.all
      (fun g => g.createRevision.isSome && !g.revisions.isEmpty) &&
    (if lastG.createRevision.isSome then !lastG.revisions.isEmpty
     else lastG.revisions.isEmpty) &&
    mainsNondecreasing (flatRevisions ki.generations)

/-- Written from the claim: what compaction keeps of one non-final
generation — an open generation keeps exactly its revisions with
`main ≥ compact.main` and survives iff one such revision exists; a
tombstone (no revisions) is dropped. -/
def specKeptGen (compact : Revision) (g : Generation) : Option Generation :=
  if g.createRevision.isSome then
    if (g.revisions.filter (fun rv => !(decide (rv.main < compact.main)))).isEmpty
    then none
    else some ⟨g.createRevision, g.verison,
      g.revisions.filter (fun rv => !(decide (rv.main < compact.main)))⟩
  else none

/-- Written from the claim: the surviving non-final generations. -/
def specFrontKept (compact : Revision) (front : List Generation) :
    List Generation :=
  front.filterMap (specKeptGen compact)

/-- Written from the claim: the revisions a non-final generation loses. -/
def specDroppedGen (compact : Revision) (g : Generation) : List Revision :=
  if g.createRevision.isSome then
    g.revisions.filter (fun rv => decide (rv.main < compact.main))
  else []

/-- Written from the claim: all revisions the non-final generations lose. -/
def specFrontDropped (compact : Revision) (front : List Generation) :
    List Revision :=
  (front.map (specDroppedGen compact)).flatten

/-- Written from the claim (as amended): the generations surviving
compaction.  Non-final generations survive iff they contain a revision with
`main ≥ compact.main` and keep exactly those; the final generation, when
open, keeps those plus always its final revision; a trailing tombstone is
retained exactly when some other generation survived. -/
def specCompactGens (compact : Revision) (gens : List Generation) :
    List Generation :=
  match gens.getLast? with
  | none => []
  | some lastG =>
    if lastG.createRevision.isSome then
      match lastG.revisions.getLast? with
      | none => specFrontKept compact gens.dropLast
      | some lastRv =>
        specFrontKept compact gens.dropLast ++
          [⟨lastG.createRevision, lastG.verison,
            lastG.revisions.dropLast.filter
              (fun rv => !(decide (rv.main < compact.main))) ++ [lastRv]⟩]
    else
      if (specFrontKept compact gens.dropLast).isEmpty then []
      else specFrontKept compact gens.dropLast ++ [lastG]

/-- Written from the claim: every revision removed from the KeyIndex, in
order — they are exactly the ones erased from the revision map. -/
def specDroppedRevisions (compact : Revision) (gens : List Generation) :
    List Revision :=
  match gens.getLast? with
  | none => []
  | some lastG =>
    specFrontDropped compact gens.dropLast ++
      (if lastG.createRevision.isSome then
        lastG.revisions.dropLast.filter (fun rv => decide (rv.main < compact.main))
       else [])

theorem flatRevisions_cons (g : Generation) (rest : List Generation) :
    flatRevisions (g :: rest) = g.revisions ++ flatRevisions rest := by
  simp [flatRevisions]

theorem flatRevisions_append (xs ys : List Generation) :
    flatRevisions (xs ++ ys) = flatRevisions xs ++ flatRevisions ys := by
  simp [flatRevisions]

theorem mainsNondecreasing_tail (a : Revision) (l : List Revision)
    (h : mainsNondecreasing (a :: l) = true) : mainsNondecreasing l = true := by
  cases l with
  | nil => rfl
  | cons b r =>
    rw [mainsNondecreasing, Bool.and_eq_true] at h
    exact h.2

theorem mainsNondecreasing_head_le (l : List Revision) :
    ∀ (a : Revision), mainsNondecreasing (a :: l) = true →
    ∀ x ∈ l, a.main ≤ x.main := by
  induction l with
  | nil => intro a _ x hx; simp at hx
  | cons b r ih =>
    intro a h x hx
    rw [mainsNondecreasing, Bool.and_eq_true] at h
    obtain ⟨hab, hbr⟩ := h
    rcases List.mem_cons.mp hx with rfl | hxr
    · exact of_decide_eq_true hab
    · exact le_trans (of_decide_eq_true hab) (ih b hbr x hxr)

theorem mainsNondecreasing_append_right (xs ys : List Revision)
    (h : mainsNondecreasing (xs ++ ys) = true) :
    mainsNondecreasing ys = true := by
  induction xs with
  | nil => exact h
  | cons a rest ih =>
    exact ih (mainsNondecreasing_tail a (rest ++ ys) h)

theorem mainsNondecreasing_append_left (xs ys : List Revision)
    (h : mainsNondecreasing (xs ++ ys) = true) :
    mainsNondecreasing xs = true := by
  induction xs with
  | nil => rfl
  | cons a rest ih =>
    cases rest with
    | nil => rfl
    | cons b r =>
      rw [mainsNondecreasing]
      rw [show ((a :: b :: r) ++ ys) = a :: b :: (r ++ ys) from by simp] at h
      rw [mainsNondecreasing, Bool.and_eq_true] at h
      obtain ⟨hab, hrest⟩ := h
      rw [hab, Bool.true_and]
      exact ih hrest

theorem mainsNondecreasing_cross (xs ys : List Revision)
    (h : mainsNondecreasing (xs ++ ys) = true) :
    ∀ x ∈ xs, ∀ y ∈ ys, x.main ≤ y.main := by
  induction xs with
  | nil => intro x hx; simp at hx
  | cons a rest ih =>
    intro x hx y hy
    rcases List.mem_cons.mp hx with rfl | hxr
    · exact mainsNondecreasing_head_le (rest ++ ys) x h y
        (List.mem_append.mpr (Or.inr hy))
    · exact ih (mainsNondecreasing_tail a (rest ++ ys) h) x hxr y hy

theorem specFront_all_ge (compact : Revision) :
    ∀ (front : List Generation),
    (∀ g ∈ front, g.createRevision.isSome = true ∧ g.revisions ≠ []) →
    (∀ rv ∈ flatRevisions front, ¬ rv.main < compact.main) →
    specFrontKept compact front = front ∧
    specFrontDropped compact front = [] := by
  intro front
  induction front with
  | nil => intro _ _; exact ⟨rfl, rfl⟩
  | cons g rest ih =>
    intro hall hge
    have hg := hall g (by simp)
    have hgrev : ∀ rv ∈ g.revisions, ¬ rv.main < compact.main := by
      intro rv hrv
      exact hge rv (by rw [flatRevisions_cons]; exact List.mem_append.mpr (Or.inl hrv))
    have hfilter : g.revisions.filter
        (fun rv => !(decide (rv.main < compact.main))) = g.revisions :=
      List.filter_eq_self.mpr (fun rv hrv => by simpa using hgrev rv hrv)
    have hdrop : g.revisions.filter
        (fun rv => decide (rv.main < compact.main)) = [] :=
      List.filter_eq_nil_iff.mpr (fun rv hrv => by simpa using hgrev rv hrv)
    obtain ⟨ihk, ihd⟩ := ih (fun g' h => hall g' (by simp [h]))
      (fun rv hrv => hge rv
        (by rw [flatRevisions_cons]; exact List.mem_append.mpr (Or.inr hrv)))
    have hkg : specKeptGen compact g = some g := by
      unfold specKeptGen
      rw [if_pos hg.1, hfilter, if_neg (by simpa using hg.2)]
    constructor
    · unfold specFrontKept at ihk ⊢
      rw [List.filterMap_cons, hkg]
      rw [ihk]
    · unfold specFrontDropped at ihd ⊢
      rw [List.map_cons, List.flatten_cons, ihd]
      unfold specDroppedGen
      rw [if_pos hg.1, hdrop]
      rfl

theorem specFrontKept_witness (compact : Revision) (front : List Generation)
    (hne : specFrontKept compact front ≠ []) :
    ∃ x ∈ flatRevisions front, ¬ x.main < compact.main := by
  obtain ⟨h, hh⟩ := List.exists_mem_of_ne_nil _ hne
  obtain ⟨g, hgmem, hkg⟩ := List.mem_filterMap.mp hh
  unfold specKeptGen at hkg
  by_cases hs : g.createRevision.isSome
  · rw [if_pos hs] at hkg
    by_cases hk : (g.revisions.filter
        (fun rv => !(decide (rv.main < compact.main)))).isEmpty
    · rw [if_pos hk] at hkg; cases hkg
    · have hkne : g.revisions.filter
          (fun rv => !(decide (rv.main < compact.main))) ≠ [] :=
        fun hh => hk (by rw [hh]; rfl)
      obtain ⟨x, hx⟩ := List.exists_mem_of_ne_nil _ hkne
      refine ⟨x, ?_, by simpa using List.of_mem_filter hx⟩
      unfold flatRevisions
      rw [List.mem_flatten]
      exact ⟨g.revisions, List.mem_map.mpr ⟨g, hgmem, rfl⟩,
        List.mem_of_mem_filter hx⟩
  · rw [if_neg hs] at hkg; cases hkg

theorem compactHistLoop_spec (compact : Revision) :
    ∀ (front : List Generation) (dels0 : List Revision),
    (∀ g ∈ front, g.createRevision.isSome = true ∧ g.revisions ≠ []) →
    mainsNondecreasing (flatRevisions front) = true →
    compactHistLoop compact front [] dels0 =
      (specFrontKept compact front, dels0 ++ specFrontDropped compact front) := by
  intro front
  induction front with
  | nil =>
    intro dels0 _ _
    show ([], dels0) = ([], dels0 ++ [])
    simp
  | cons g rest ih =>
    intro dels0 hall hm
    have hg := hall g (by simp)
    have hmrest : mainsNondecreasing (flatRevisions rest) = true := by
      rw [flatRevisions_cons] at hm
      exact mainsNondecreasing_append_right _ _ hm
    by_cases hk : (g.revisions.filter
        (fun rv => !(decide (rv.main < compact.main)))).isEmpty
    · rw [show compactHistLoop compact (g :: rest) [] dels0 =
          compactHistLoop compact rest []
            (dels0 ++ g.revisions.filter (fun rv => decide (rv.main < compact.main)))
          from by
        simp only [compactHistLoop]
        rw [if_pos hg.1, if_pos hk]]
      rw [ih _ (fun g' h => hall g' (by simp [h])) hmrest]
      have hkg : specKeptGen compact g = none := by
        unfold specKeptGen
        rw [if_pos hg.1, if_pos hk]
      have h1 : specFrontKept compact (g :: rest) = specFrontKept compact rest := by
        unfold specFrontKept
        rw [List.filterMap_cons, hkg]
      have h2 : specFrontDropped compact (g :: rest) =
          g.revisions.filter (fun rv => decide (rv.main < compact.main)) ++
            specFrontDropped compact rest := by
        unfold specFrontDropped specDroppedGen
        rw [List.map_cons, List.flatten_cons, if_pos hg.1]
      rw [h1, h2]
      simp [List.append_assoc]
    · rw [show compactHistLoop compact (g :: rest) [] dels0 =
          compactHistLoop compact rest
            [⟨g.createRevision, g.verison,
              g.revisions.filter (fun rv => !(decide (rv.main < compact.main)))⟩]
            (dels0 ++ g.revisions.filter (fun rv => decide (rv.main < compact.main)))
          from by
        simp only [compactHistLoop]
        rw [if_pos hg.1, if_neg hk]]
      rw [compactHistLoop_acc_ne]
      have hx : ∃ x ∈ g.revisions, ¬ x.main < compact.main := by
        have hkne : g.revisions.filter
            (fun rv => !(decide (rv.main < compact.main))) ≠ [] :=
          fun hh => hk (by rw [hh]; rfl)
        obtain ⟨x, hx⟩ := List.exists_mem_of_ne_nil _ hkne
        exact ⟨x, List.mem_of_mem_filter hx, by simpa using List.of_mem_filter hx⟩
      have hge_rest : ∀ rv ∈ flatRevisions rest, ¬ rv.main < compact.main := by
        intro y hy
        obtain ⟨x, hxmem, hxge⟩ := hx
        have hcross := mainsNondecreasing_cross g.revisions (flatRevisions rest)
          (by rw [flatRevisions_cons] at hm; exact hm) x hxmem y hy
        omega
      obtain ⟨hsfk, hsfd⟩ := specFront_all_ge compact rest
        (fun g' h => hall g' (by simp [h])) hge_rest
      have hkg : specKeptGen compact g = some
          ⟨g.createRevision, g.verison,
            g.revisions.filter (fun rv => !(decide (rv.main < compact.main)))⟩ := by
        unfold specKeptGen
        rw [if_pos hg.1, if_neg hk]
      have h1 : specFrontKept compact (g :: rest) =
          (⟨g.createRevision, g.verison,
            g.revisions.filter (fun rv => !(decide (rv.main < compact.main)))⟩ :
            Generation) :: rest := by
        unfold specFrontKept
        rw [List.filterMap_cons, hkg]
        unfold specFrontKept at hsfk
        rw [hsfk]
      have h2 : specFrontDropped compact (g :: rest) =
          g.revisions.filter (fun rv => decide (rv.main < compact.main)) := by
        unfold specFrontDropped
        rw [List.map_cons, List.flatten_cons]
        rw [show specDroppedGen compact g =
            g.revisions.filter (fun rv => decide (rv.main < compact.main)) from by
          unfold specDroppedGen
          rw [if_pos hg.1]]
        unfold specFrontDropped at hsfd
        rw [hsfd]
        simp
      rw [h1, h2]
      simp

theorem compactGens_spec (compact : Revision) (gens : List Generation)
    (lastG : Generation) (hlast : gens.getLast? = some lastG)
    (hall : ∀ g ∈ gens.dropLast, g.createRevision.isSome = true ∧ g.revisions ≠ [])
    (hlastwf : if lastG.createRevision.isSome then lastG.revisions ≠ []
               else lastG.revisions = [])
    (hm : mainsNondecreasing (flatRevisions gens) = true) :
    compactGens compact gens =
      (specCompactGens compact gens, specDroppedRevisions compact gens) := by
  have hgne : gens ≠ [] := by
    intro h
    rw [h] at hlast
    cases hlast
  have hlgeq : gens.getLast hgne = lastG := by
    have h2 := List.getLast?_eq_getLast gens hgne
    rw [hlast] at h2
    exact (Option.some_inj.mp h2).symm
  have hsplit : gens.dropLast ++ [lastG] = gens := by
    rw [← hlgeq]
    exact List.dropLast_append_getLast hgne
  have hm2 : mainsNondecreasing
      (flatRevisions gens.dropLast ++ lastG.revisions) = true := by
    have h3 : flatRevisions (gens.dropLast ++ [lastG]) =
        flatRevisions gens.dropLast ++ lastG.revisions := by
      rw [flatRevisions_append]
      simp [flatRevisions]
    rw [← h3, hsplit]
    exact hm
  have hmfront : mainsNondecreasing (flatRevisions gens.dropLast) = true :=
    mainsNondecreasing_append_left _ _ hm2
  rw [compactGens_eq_some compact hlast]
  rw [compactHistLoop_spec compact gens.dropLast [] hall hmfront]
  dsimp only
  simp only [List.nil_append]
  unfold specCompactGens specDroppedRevisions
  rw [hlast]
  dsimp only
  by_cases hsome : lastG.createRevision.isSome
  · rw [if_pos hsome] at hlastwf
    rw [if_pos hsome, if_pos hsome]
    obtain ⟨lastRv, hlastrv⟩ : ∃ x, lastG.revisions.getLast? = some x := by
      cases hx : lastG.revisions.getLast? with
      | none => exact absurd (List.getLast?_eq_none_iff.mp hx) hlastwf
      | some x => exact ⟨x, rfl⟩
    rw [hlastrv]
    dsimp only
    cases hfk : specFrontKept compact gens.dropLast with
    | nil =>
      rw [compactLatest_nil_open compact lastG _ hsome lastRv hlastrv]
      simp
    | cons h t =>
      rw [compactLatest_cons]
      have hwit : ∃ x ∈ flatRevisions gens.dropLast, ¬ x.main < compact.main :=
        specFrontKept_witness compact gens.dropLast (by rw [hfk]; simp)
      have hgerest : ∀ y ∈ lastG.revisions, ¬ y.main < compact.main := by
        intro y hy
        obtain ⟨x, hxmem, hxge⟩ := hwit
        have := mainsNondecreasing_cross _ _ hm2 x hxmem y hy
        omega
      have hfilter : lastG.revisions.dropLast.filter
          (fun rv => !(decide (rv.main < compact.main))) =
          lastG.revisions.dropLast :=
        List.filter_eq_self.mpr (fun rv hrv => by
          simpa using hgerest rv (List.dropLast_subset _ hrv))
      have hdropf : lastG.revisions.dropLast.filter
          (fun rv => decide (rv.main < compact.main)) = [] :=
        List.filter_eq_nil_iff.mpr (fun rv hrv => by
          simpa using hgerest rv (List.dropLast_subset _ hrv))
      have hlastval : lastRv = lastG.revisions.getLast hlastwf := by
        have h2 := List.getLast?_eq_getLast lastG.revisions hlastwf
        rw [hlastrv] at h2
        exact Option.some_inj.mp h2
      have hgen : (⟨lastG.createRevision, lastG.verison,
          lastG.revisions.dropLast.filter
            (fun rv => !(decide (rv.main < compact.main))) ++ [lastRv]⟩ :
            Generation) = lastG := by
        rw [hfilter, hlastval, List.dropLast_append_getLast hlastwf]
      rw [hgen, hdropf]
      simp
  · rw [if_neg hsome] at hlastwf
    rw [if_neg hsome, if_neg hsome]
    have hsf : lastG.createRevision.isSome = false := by
      simpa using hsome
    cases hfk : specFrontKept compact gens.dropLast with
    | nil =>
      rw [compactLatest_nil_tomb compact lastG _ hsf]
      rw [if_pos (by rfl)]
      simp
    | cons h t =>
      rw [compactLatest_cons]
      rw [if_neg (by simp)]
      simp

theorem foldl_deleteRawKvRev_kvRevMap :
    ∀ (dels : List Revision) (s : KvState),
    (dels.foldl (fun st rv => deleteRawKvRev rv st) s).kvRevMap =
      dels.foldl (fun m rv => mapErase (revisionToString rv) m) s.kvRevMap := by
  intro dels
  induction dels with
  | nil => intro s; rfl
  | cons d rest ih =>
    intro s
    rw [List.foldl_cons, List.foldl_cons, ih]
    rfl

/-- C3 (amended): on a well-formed KeyIndex, `KvCompactApply` retains
exactly the generations containing a revision with `main ≥ compact.main`
(keeping only those revisions in them), except that the final revision of
the most-recent open generation is always retained, and a trailing
tombstone generation is retained exactly when some other generation
survives; every revision removed from the KeyIndex — and only those — is
erased from the revision map, and the KeyIndex entry itself is erased when
no generation survives. -/
theorem C3_compact_retention_spec (s : KvState) (key : Key) (compact : Revision)
    (ki : KvIndexInternal) (hget : mapGet key s.kvIndexMap = some ki)
    (hwf : wfKeyIndex ki = true) :
    (kvCompactApply s key compact).2 = KStatus.ok ∧
    (kvCompactApply s key compact).1.kvIndexMap =
      (if (specCompactGens compact ki.generations).isEmpty then
        mapErase key s.kvIndexMap
       else mapPut key
        { ki with generations := specCompactGens compact ki.generations }
        s.kvIndexMap) ∧
    (kvCompactApply s key compact).1.kvRevMap =
      (specDroppedRevisions compact ki.generations).foldl
        (fun m rv => mapErase (revisionToString rv) m) s.kvRevMap := by
  unfold wfKeyIndex at hwf
  cases hlast : ki.generations.getLast? with
  | none => rw [hlast] at hwf; cases hwf
  | some lastG =>
    rw [hlast] at hwf
    simp only [Bool.and_eq_true] at hwf
    obtain ⟨⟨hallb, hlastb⟩, hm⟩ := hwf
    have hall : ∀ g ∈ ki.generations.dropLast,
        g.createRevision.isSome = true ∧ g.revisions ≠ [] := by
      intro g hg
      have h2 := List.all_eq_true.mp hallb g hg
      simp only [Bool.and_eq_true] at h2
      exact ⟨h2.1, by simpa using h2.2⟩
    have hlastwf : if lastG.createRevision.isSome then lastG.revisions ≠ []
        else lastG.revisions = [] := by
      by_cases hs : lastG.createRevision.isSome
      · rw [if_pos hs]
        rw [if_pos hs] at hlastb
        simpa using hlastb
      · rw [if_neg hs]
        rw [if_neg hs] at hlastb
        simpa using hlastb
    have hcg := compactGens_spec compact ki.generations lastG hlast hall hlastwf hm
    have hfirst : kvCompactApply s key compact =
        ((compactGens compact ki.generations).2.foldl
          (fun st rv => deleteRawKvRev rv st)
          (if (compactGens compact ki.generations).1.isEmpty then
            deleteRawKvIndex key s
           else putRawKvIndex key
            { ki with generations := (compactGens compact ki.generations).1 } s),
         KStatus.ok) := by
      unfold kvCompactApply
      rw [hget]
      dsimp only
      rw [hlast]
    refine ⟨?_, ?_, ?_⟩
    · rw [hfirst]
    · rw [hfirst]
      dsimp only
      rw [hcg]
      dsimp only
      rw [foldl_deleteRawKvRev_kvIndexMap]
      by_cases hemp : (specCompactGens compact ki.generations).isEmpty
      · rw [if_pos hemp, if_pos hemp]
        rfl
      · rw [if_neg hemp, if_neg hemp]
        rfl
    · rw [hfirst]
      dsimp only
      rw [hcg]
      dsimp only
      rw [foldl_deleteRawKvRev_kvRevMap]
      by_cases hemp : (specCompactGens compact ki.generations).isEmpty
      · rw [if_pos hemp]
        rfl
      · rw [if_neg hemp]
        rfl

/-- Two-generation KeyIndex: one open generation closed by a delete
(revisions 1..3, the delete at main 3) and the trailing tombstone. -/
def c3Ki : KvIndexInternal :=
  ⟨[107], ⟨3, 0⟩, [⟨some ⟨1, 0⟩, 3, [⟨1, 0⟩, ⟨2, 0⟩, ⟨3, 0⟩]⟩, ⟨none, 0, []⟩]⟩

/-- State holding only `c3Ki`. -/
def c3State : KvState := ⟨[([107], c3Ki)], [], [], []⟩

/-- C3 (counterexample): compacting at revision main 3 retains the trailing
tombstone generation even though it contains no revision at all (so none
`≥ 3`) — the claim's "retains only generations containing some revision
`≥ R`" fails on tombstones. -/
theorem C3_counterexample_tombstone_retained :
    (kvCompactApply c3State [107] ⟨3, 0⟩).1.kvIndexMap =
      [([107], ⟨[107], ⟨3, 0⟩,
        [⟨some ⟨1, 0⟩, 3, [⟨3, 0⟩]⟩, ⟨none, 0, []⟩]⟩)] ∧
    (⟨none, 0, []⟩ : Generation).revisions = [] := by
  constructor
  · decide
  · rfl

/-- Witness for C3 at the concrete two-generation state. -/
theorem C3_witness :
    (kvCompactApply c3State [107] ⟨3, 0⟩).2 = KStatus.ok ∧
    (kvCompactApply c3State [107] ⟨3, 0⟩).1.kvIndexMap =
      (if (specCompactGens ⟨3, 0⟩ c3Ki.generations).isEmpty then
        mapErase [107] c3State.kvIndexMap
       else mapPut [107]
        { c3Ki with generations := specCompactGens ⟨3, 0⟩ c3Ki.generations }
        c3State.kvIndexMap) ∧
    (kvCompactApply c3State [107] ⟨3, 0⟩).1.kvRevMap =
      (specDroppedRevisions ⟨3, 0⟩ c3Ki.generations).foldl
        (fun m rv => mapErase (revisionToString rv) m) c3State.kvRevMap :=
  C3_compact_retention_spec c3State [107] ⟨3, 0⟩ c3Ki (by decide) (by decide)

/-! ## C4 — generation structure under put/delete traces on one key -/

/-- Mutations applied to a single key, with the revision the clock assigned
to each. -/
inductive KOp where
  | put (r : Revision)
  | del (r : Revision)
deriving DecidableEq, Repr

/-- The revision an operation carries. -/
def KOp.rev : KOp → Revision
  | KOp.put r => r
  | KOp.del r => r

/-- One apply step on a single key's stored index (`none` = key absent):
puts run the KeyIndex update of `KvPutApply`, deletes the one of
`KvDeleteApply` (a delete of an absent key is a no-op). -/
def traceStep (key : Key) (st : Option KvIndexInternal) : KOp → Option KvIndexInternal
  | KOp.put r => some (kvPutApplyIndexUpdate key r st).1
  | KOp.del r =>
    match st with
    | none => none
    | some ki => some (kvDeleteApplyIndexUpdate r ki).1

/-- The key's index after applying a whole trace, starting absent. -/
def applyTrace (key : Key) (ops : List KOp) : Option KvIndexInternal :=
  ops.foldl (traceStep key) none

/-- Generation list of an optional index. -/
def gensOf : Option KvIndexInternal → List Generation
  | none => []
  | some ki => ki.generations

theorem revLt_irrefl (a : Revision) : ¬ revLt a a := by
  unfold revLt
  omega

theorem revLt_asymm {a b : Revision} (h : revLt a b) : ¬ revLt b a := by
  unfold revLt at h ⊢
  omega

theorem applyTrace_snoc (key : Key) (ops : List KOp) (op : KOp) :
    applyTrace key (ops ++ [op]) = traceStep key (applyTrace key ops) op := by
  unfold applyTrace
  rw [List.foldl_append]
  rfl

theorem getLast?_split {α : Type} {l : List α} {a : α}
    (h : l.getLast? = some a) : l.dropLast ++ [a] = l := by
  have hne : l ≠ [] := by
    intro hl
    rw [hl] at h
    cases h
  have hlg : l.getLast hne = a := by
    have h2 := List.getLast?_eq_getLast l hne
    rw [h] at h2
    exact (Option.some_inj.mp h2).symm
  rw [← hlg]
  exact List.dropLast_append_getLast hne

theorem mem_of_getLast? {α : Type} {l : List α} {a : α}
    (h : l.getLast? = some a) : a ∈ l := by
  rw [← getLast?_split h]
  simp

theorem mem_split_getLast? {α : Type} {l : List α} {a g : α}
    (h : l.getLast? = some a) : g ∈ l ↔ g ∈ l.dropLast ∨ g = a := by
  have hs := getLast?_split h
  constructor
  · intro hg
    rw [← hs] at hg
    simpa using hg
  · intro hg
    rw [← hs]
    simpa using hg

theorem traceStep_put_none (key : Key) (r : Revision) :
    traceStep key none (KOp.put r) =
      some ⟨key, r, [⟨some r, 1, [r]⟩]⟩ := rfl

theorem traceStep_put_open (key : Key) (r : Revision) (ki : KvIndexInternal)
    (latest : Generation) (hl : ki.generations.getLast? = some latest)
    (hc : latest.createRevision.isSome = true) :
    traceStep key (some ki) (KOp.put r) =
      some ({ ki with
              modRevision := r,
              generations := ki.generations.dropLast ++
                [{ latest with
                   revisions := latest.revisions ++ [r],
                   verison := latest.verison + 1 }] }) := by
  unfold traceStep kvPutApplyIndexUpdate
  dsimp only
  rw [hl]
  dsimp only
  rw [if_pos hc]

theorem traceStep_put_tomb (key : Key) (r : Revision) (ki : KvIndexInternal)
    (latest : Generation) (hl : ki.generations.getLast? = some latest)
    (hc : latest.createRevision.isSome = false) :
    traceStep key (some ki) (KOp.put r) =
      some ({ ki with
              modRevision := r,
              generations := ki.generations.dropLast ++ [⟨some r, 1, [r]⟩] }) := by
  unfold traceStep kvPutApplyIndexUpdate
  dsimp only
  rw [hl]
  dsimp only
  rw [if_neg (by simp [hc])]

theorem traceStep_del_open (key : Key) (d : Revision) (ki : KvIndexInternal)
    (latest : Generation) (hl : ki.generations.getLast? = some latest)
    (hc : latest.createRevision.isSome = true) :
    traceStep key (some ki) (KOp.del d) =
      some ({ ki with
              modRevision := d,
              generations := ki.generations.dropLast ++
                [{ latest with
                   revisions := latest.revisions ++ [d],
                   verison := latest.verison + 1 }, ⟨none, 0, []⟩] }) := by
  unfold traceStep kvDeleteApplyIndexUpdate
  dsimp only
  rw [hl]
  dsimp only
  rw [if_pos hc]

theorem traceStep_del_tomb (key : Key) (d : Revision) (ki : KvIndexInternal)
    (latest : Generation) (hl : ki.generations.getLast? = some latest)
    (hc : latest.createRevision.isSome = false) :
    traceStep key (some ki) (KOp.del d) =
      some ({ ki with modRevision := d }) := by
  unfold traceStep kvDeleteApplyIndexUpdate
  dsimp only
  rw [hl]
  dsimp only
  rw [if_neg (by simp [hc])]

/-- The conjunction of structural invariants a put/delete trace maintains on
one key's index: absence characterizes put-free traces; a stored index has
generations; generation members come from the trace; tombstone generations
are empty; a put revision sits in an open last generation iff no delete
follows it; and two put revisions share a generation iff no delete lies
between them. -/
def TraceInv (key : Key) (ops : List KOp) : Prop :=
  (applyTrace key ops = none ↔ ∀ r, KOp.put r ∉ ops) ∧
  (∀ ki, applyTrace key ops = some ki → ki.generations ≠ []) ∧
  (∀ g ∈ gensOf (applyTrace key ops), ∀ rv ∈ g.revisions,
     KOp.put rv ∈ ops ∨ KOp.del rv ∈ ops) ∧
  (∀ g ∈ gensOf (applyTrace key ops),
     g.createRevision.isSome = false → g.revisions = []) ∧
  (∀ r1, KOp.put r1 ∈ ops →
    ((∃ g, (gensOf (applyTrace key ops)).getLast? = some g ∧
       g.createRevision.isSome = true ∧ r1 ∈ g.revisions) ↔
     ¬ ∃ d, KOp.del d ∈ ops ∧ revLt r1 d)) ∧
  (∀ r1 r2, KOp.put r1 ∈ ops → KOp.put r2 ∈ ops → revLt r1 r2 →
    ((∃ g ∈ gensOf (applyTrace key ops), r1 ∈ g.revisions ∧ r2 ∈ g.revisions) ↔
     ¬ ∃ d, KOp.del d ∈ ops ∧ revLt r1 d ∧ revLt d r2))

theorem traceInv_put (key : Key) (ops : List KOp) (r : Revision)
    (ih : TraceInv key ops) (hlt : ∀ o ∈ ops, revLt o.rev r) :
    TraceInv key (ops ++ [KOp.put r]) := by
  obtain ⟨ih0, ih0b, ih1, ih3, ih2, ihB⟩ := ih
  have hput_new : KOp.put r ∈ ops ++ [KOp.put r] := by simp
  have hputs_iff : ∀ r', KOp.put r' ∈ ops ++ [KOp.put r] ↔
      (KOp.put r' ∈ ops ∨ r = r') := by
    intro r'
    rw [List.mem_append, List.mem_singleton]
    constructor
    · rintro (h | h)
      · exact Or.inl h
      · injection h with h
        exact Or.inr h.symm
    · rintro (h | h)
      · exact Or.inl h
      · rw [h]
        exact Or.inr rfl
  have hdels_iff : ∀ d, KOp.del d ∈ ops ++ [KOp.put r] ↔ KOp.del d ∈ ops := by
    intro d
    simp [List.mem_append]
  have hfresh : ∀ rv, (KOp.put rv ∈ ops ∨ KOp.del rv ∈ ops) → rv ≠ r := by
    rintro rv (h | h) rfl
    · exact revLt_irrefl rv (hlt _ h)
    · exact revLt_irrefl rv (hlt _ h)
  have hput_r_notin : KOp.put r ∉ ops := fun h => revLt_irrefl r (hlt _ h)
  have hdel_lt : ∀ d, KOp.del d ∈ ops → revLt d r := fun d h => hlt _ h
  cases hS : applyTrace key ops with
  | none =>
    have hS1 : applyTrace key (ops ++ [KOp.put r]) =
        some ⟨key, r, [⟨some r, 1, [r]⟩]⟩ := by
      rw [applyTrace_snoc, hS]
      rfl
    have hG1 : gensOf (applyTrace key (ops ++ [KOp.put r])) =
        [⟨some r, 1, [r]⟩] := by
      rw [hS1]
      rfl
    have hnoput : ∀ r', KOp.put r' ∉ ops := ih0.mp hS
    refine ⟨⟨fun h => ?_, fun h => absurd hput_new (h r)⟩, ?_, ?_, ?_, ?_, ?_⟩
    · rw [hS1] at h
      cases h
    · intro ki hki
      rw [hS1] at hki
      rw [← Option.some_inj.mp hki]
      simp
    · intro g hg rv hrv
      rw [hG1] at hg
      rw [List.mem_singleton] at hg
      subst hg
      rw [List.mem_singleton] at hrv
      subst hrv
      exact Or.inl hput_new
    · intro g hg hcre
      rw [hG1] at hg
      rw [List.mem_singleton] at hg
      subst hg
      cases hcre
    · intro r1 h1
      rw [hputs_iff r1] at h1
      rcases h1 with h1 | rfl
      · exact absurd h1 (hnoput r1)
      · apply iff_of_true
        · exact ⟨⟨some r, 1, [r]⟩, by rw [hG1]; rfl, rfl, by simp⟩
        · rintro ⟨d, hd, hltd⟩
          rw [hdels_iff d] at hd
          exact revLt_asymm (hdel_lt d hd) hltd
    · intro r1 r2 h1 h2 h12
      rw [hputs_iff r1] at h1
      rw [hputs_iff r2] at h2
      rcases h1 with h1 | rfl
      · exact absurd h1 (hnoput r1)
      · rcases h2 with h2 | rfl
        · exact absurd h2 (hnoput r2)
        · exact absurd h12 (revLt_irrefl r)
  | some ki =>
    have hgne : ki.generations ≠ [] := ih0b ki hS
    obtain ⟨latest, hlatest⟩ : ∃ l, ki.generations.getLast? = some l := by
      cases hx : ki.generations.getLast? with
      | none => exact absurd (List.getLast?_eq_none_iff.mp hx) hgne
      | some l => exact ⟨l, rfl⟩
    have hG0 : gensOf (applyTrace key ops) = ki.generations := by
      rw [hS]
      rfl
    have hdrop_sub : ∀ g ∈ ki.generations.dropLast, g ∈ ki.generations :=
      fun g hg => (mem_split_getLast? hlatest).mpr (Or.inl hg)
    have hlatest_mem : latest ∈ ki.generations := mem_of_getLast? hlatest
    have hnotr : ∀ g ∈ ki.generations, r ∉ g.revisions := by
      intro g hg hr
      exact hfresh r (ih1 g (by rw [hG0]; exact hg) r hr) rfl
    by_cases hc : latest.createRevision.isSome
    · -- last generation open: the put appends to it
      have hS1 : applyTrace key (ops ++ [KOp.put r]) =
          some ({ ki with
                  modRevision := r,
                  generations := ki.generations.dropLast ++
                    [{ latest with
                       revisions := latest.revisions ++ [r],
                       verison := latest.verison + 1 }] }) := by
        rw [applyTrace_snoc, hS, traceStep_put_open key r ki latest hlatest hc]
      have hG1 : gensOf (applyTrace key (ops ++ [KOp.put r])) =
          ki.generations.dropLast ++
            [{ latest with
               revisions := latest.revisions ++ [r],
               verison := latest.verison + 1 }] := by
        rw [hS1]
        rfl
      have hlast1 : (gensOf (applyTrace key (ops ++ [KOp.put r]))).getLast? =
          some ({ latest with
                  revisions := latest.revisions ++ [r],
                  verison := latest.verison + 1 }) := by
        rw [hG1]
        exact List.getLast?_concat _
      have hmem1 : ∀ g, g ∈ gensOf (applyTrace key (ops ++ [KOp.put r])) ↔
          (g ∈ ki.generations.dropLast ∨
           g = { latest with
                 revisions := latest.revisions ++ [r],
                 verison := latest.verison + 1 }) := by
        intro g
        rw [hG1]
        simp
      refine ⟨⟨fun h => ?_, fun h => absurd hput_new (h r)⟩, ?_, ?_, ?_, ?_, ?_⟩
      · rw [hS1] at h
        cases h
      · intro ki1 hki
        rw [hS1] at hki
        rw [← Option.some_inj.mp hki]
        simp
      · intro g hg rv hrv
        rw [hmem1 g] at hg
        rcases hg with hg | rfl
        · exact (ih1 g (by rw [hG0]; exact hdrop_sub g hg) rv hrv).imp
            (fun h => List.mem_append_left _ h) (fun h => List.mem_append_left _ h)
        · simp only at hrv
          rcases List.mem_append.mp hrv with hrv | hrv
          · exact (ih1 latest (by rw [hG0]; exact hlatest_mem) rv hrv).imp
              (fun h => List.mem_append_left _ h) (fun h => List.mem_append_left _ h)
          · rw [List.mem_singleton] at hrv
            subst hrv
            exact Or.inl hput_new
      · intro g hg hcre
        rw [hmem1 g] at hg
        rcases hg with hg | rfl
        · exact ih3 g (by rw [hG0]; exact hdrop_sub g hg) hcre
        · simp only at hcre
          rw [hc] at hcre
          cases hcre
      · intro r1 h1
        rw [hputs_iff r1] at h1
        rcases h1 with h1 | rfl
        · have hne1 : r1 ≠ r := hfresh r1 (Or.inl h1)
          constructor
          · rintro ⟨g, hgl, hgs, hgr⟩ hex
            rw [hlast1] at hgl
            rw [← Option.some_inj.mp hgl] at hgr
            simp only at hgr
            rcases List.mem_append.mp hgr with hgr | hgr
            · obtain ⟨d, hd, hltd⟩ := hex
              exact (ih2 r1 h1).mp
                ⟨latest, by rw [hG0]; exact hlatest, hc, hgr⟩
                ⟨d, (hdels_iff d).mp hd, hltd⟩
            · rw [List.mem_singleton] at hgr
              exact hne1 hgr
          · intro hnex
            have hnex0 : ¬ ∃ d, KOp.del d ∈ ops ∧ revLt r1 d :=
              fun ⟨d, hd, hl⟩ => hnex ⟨d, (hdels_iff d).mpr hd, hl⟩
            obtain ⟨g, hgl, hgs, hgr⟩ := (ih2 r1 h1).mpr hnex0
            rw [hG0, hlatest] at hgl
            rw [← Option.some_inj.mp hgl] at hgr
            exact ⟨_, hlast1, hc, by
              simp only []
              exact List.mem_append_left _ hgr⟩
        · apply iff_of_true
          · exact ⟨_, hlast1, hc, by simp⟩
          · rintro ⟨d, hd, hltd⟩
            rw [hdels_iff d] at hd
            exact revLt_asymm (hdel_lt d hd) hltd
      · intro r1 r2 h1 h2 h12
        rw [hputs_iff r1] at h1
        rw [hputs_iff r2] at h2
        rcases h2 with h2 | rfl
        · -- r2 is an old put, hence r1 as well
          rcases h1 with h1 | rfl
          · have hrhs : (∃ d, KOp.del d ∈ ops ++ [KOp.put r] ∧
                revLt r1 d ∧ revLt d r2) ↔
                (∃ d, KOp.del d ∈ ops ∧ revLt r1 d ∧ revLt d r2) := by
              constructor
              · rintro ⟨d, hd, hl⟩
                exact ⟨d, (hdels_iff d).mp hd, hl⟩
              · rintro ⟨d, hd, hl⟩
                exact ⟨d, (hdels_iff d).mpr hd, hl⟩
            have hne1 : r1 ≠ r := hfresh r1 (Or.inl h1)
            have hne2 : r2 ≠ r := hfresh r2 (Or.inl h2)
            have hlhs : (∃ g ∈ gensOf (applyTrace key (ops ++ [KOp.put r])),
                r1 ∈ g.revisions ∧ r2 ∈ g.revisions) ↔
                (∃ g ∈ gensOf (applyTrace key ops),
                 r1 ∈ g.revisions ∧ r2 ∈ g.revisions) := by
              rw [hG0]
              constructor
              · rintro ⟨g, hg, hr1, hr2⟩
                rw [hmem1 g] at hg
                rcases hg with hg | rfl
                · exact ⟨g, hdrop_sub g hg, hr1, hr2⟩
                · simp only at hr1 hr2
                  refine ⟨latest, hlatest_mem, ?_, ?_⟩
                  · rcases List.mem_append.mp hr1 with h | h
                    · exact h
                    · rw [List.mem_singleton] at h
                      exact absurd h hne1
                  · rcases List.mem_append.mp hr2 with h | h
                    · exact h
                    · rw [List.mem_singleton] at h
                      exact absurd h hne2
              · rintro ⟨g, hg, hr1, hr2⟩
                rcases (mem_split_getLast? hlatest).mp hg with hg | rfl
                · exact ⟨g, (hmem1 g).mpr (Or.inl hg), hr1, hr2⟩
                · refine ⟨_, (hmem1 _).mpr (Or.inr rfl), ?_, ?_⟩
                  · simp only []
                    exact List.mem_append_left _ hr1
                  · simp only []
                    exact List.mem_append_left _ hr2
            rw [hlhs, hrhs]
            exact ihB r1 r2 h1 h2 h12
          · exact absurd (revLt_asymm h12) (not_not_intro (hlt _ h2))
        · -- r2 is the new put
          rcases h1 with h1 | rfl
          · have hne1 : r1 ≠ r := hfresh r1 (Or.inl h1)
            have hrhs : (∃ d, KOp.del d ∈ ops ++ [KOp.put r] ∧
                revLt r1 d ∧ revLt d r) ↔
                (∃ d, KOp.del d ∈ ops ∧ revLt r1 d) := by
              constructor
              · rintro ⟨d, hd, hl, -⟩
                exact ⟨d, (hdels_iff d).mp hd, hl⟩
              · rintro ⟨d, hd, hl⟩
                exact ⟨d, (hdels_iff d).mpr hd, hl, hdel_lt d hd⟩
            rw [hrhs]
            constructor
            · rintro ⟨g, hg, hr1, hr2⟩
              rw [hmem1 g] at hg
              rcases hg with hg | rfl
              · exact absurd hr2 (hnotr g (hdrop_sub g hg))
              · simp only at hr1
                rcases List.mem_append.mp hr1 with h | h
                · exact (ih2 r1 h1).mp ⟨latest, by rw [hG0]; exact hlatest, hc, h⟩
                · rw [List.mem_singleton] at h
                  exact absurd h hne1
            · intro hnex
              obtain ⟨g, hgl, hgs, hgr⟩ := (ih2 r1 h1).mpr hnex
              rw [hG0, hlatest] at hgl
              rw [← Option.some_inj.mp hgl] at hgr
              refine ⟨_, (hmem1 _).mpr (Or.inr rfl), ?_, ?_⟩
              · simp only []
                exact List.mem_append_left _ hgr
              · simp only []
                exact List.mem_append_right _ (by simp)
          · exact absurd h12 (revLt_irrefl r)
    · -- last generation is a tombstone: the put starts a fresh generation
      have hcf : latest.createRevision.isSome = false := by
        simpa using hc
      have hS1 : applyTrace key (ops ++ [KOp.put r]) =
          some ({ ki with
                  modRevision := r,
                  generations := ki.generations.dropLast ++ [⟨some r, 1, [r]⟩] }) := by
        rw [applyTrace_snoc, hS, traceStep_put_tomb key r ki latest hlatest hcf]
      have hG1 : gensOf (applyTrace key (ops ++ [KOp.put r])) =
          ki.generations.dropLast ++ [⟨some r, 1, [r]⟩] := by
        rw [hS1]
        rfl
      have hlast1 : (gensOf (applyTrace key (ops ++ [KOp.put r]))).getLast? =
          some ⟨some r, 1, [r]⟩ := by
        rw [hG1]
        exact List.getLast?_concat _
      have hmem1 : ∀ g, g ∈ gensOf (applyTrace key (ops ++ [KOp.put r])) ↔
          (g ∈ ki.generations.dropLast ∨ g = ⟨some r, 1, [r]⟩) := by
        intro g
        rw [hG1]
        simp
      have hlatest_empty : latest.revisions = [] :=
        ih3 latest (by rw [hG0]; exact hlatest_mem) hcf
      refine ⟨⟨fun h => ?_, fun h => absurd hput_new (h r)⟩, ?_, ?_, ?_, ?_, ?_⟩
      · rw [hS1] at h
        cases h
      · intro ki1 hki
        rw [hS1] at hki
        rw [← Option.some_inj.mp hki]
        simp
      · intro g hg rv hrv
        rw [hmem1 g] at hg
        rcases hg with hg | rfl
        · exact (ih1 g (by rw [hG0]; exact hdrop_sub g hg) rv hrv).imp
            (fun h => List.mem_append_left _ h) (fun h => List.mem_append_left _ h)
        · rw [List.mem_singleton] at hrv
          subst hrv
          exact Or.inl hput_new
      · intro g hg hcre
        rw [hmem1 g] at hg
        rcases hg with hg | rfl
        · exact ih3 g (by rw [hG0]; exact hdrop_sub g hg) hcre
        · cases hcre
      · intro r1 h1
        rw [hputs_iff r1] at h1
        rcases h1 with h1 | rfl
        · have hne1 : r1 ≠ r := hfresh r1 (Or.inl h1)
          apply iff_of_false
          · rintro ⟨g, hgl, hgs, hgr⟩
            rw [hlast1] at hgl
            rw [← Option.some_inj.mp hgl] at hgr
            rw [List.mem_singleton] at hgr
            exact hne1 hgr
          · intro hnex
            have hnex0 : ¬ ∃ d, KOp.del d ∈ ops ∧ revLt r1 d :=
              fun ⟨d, hd, hl⟩ => hnex ⟨d, (hdels_iff d).mpr hd, hl⟩
            obtain ⟨g, hgl, hgs, hgr⟩ := (ih2 r1 h1).mpr hnex0
            rw [hG0, hlatest] at hgl
            rw [← Option.some_inj.mp hgl] at hgs
            rw [hcf] at hgs
            cases hgs
        · apply iff_of_true
          · exact ⟨_, hlast1, rfl, by simp⟩
          · rintro ⟨d, hd, hltd⟩
            rw [hdels_iff d] at hd
            exact revLt_asymm (hdel_lt d hd) hltd
      · intro r1 r2 h1 h2 h12
        rw [hputs_iff r1] at h1
        rw [hputs_iff r2] at h2
        rcases h2 with h2 | rfl
        · rcases h1 with h1 | rfl
          · have hrhs : (∃ d, KOp.del d ∈ ops ++ [KOp.put r] ∧
                revLt r1 d ∧ revLt d r2) ↔
                (∃ d, KOp.del d ∈ ops ∧ revLt r1 d ∧ revLt d r2) := by
              constructor
              · rintro ⟨d, hd, hl⟩
                exact ⟨d, (hdels_iff d).mp hd, hl⟩
              · rintro ⟨d, hd, hl⟩
                exact ⟨d, (hdels_iff d).mpr hd, hl⟩
            have hne1 : r1 ≠ r := hfresh r1 (Or.inl h1)
            have hne2 : r2 ≠ r := hfresh r2 (Or.inl h2)
            have hlhs : (∃ g ∈ gensOf (applyTrace key (ops ++ [KOp.put r])),
                r1 ∈ g.revisions ∧ r2 ∈ g.revisions) ↔
                (∃ g ∈ gensOf (applyTrace key ops),
                 r1 ∈ g.revisions ∧ r2 ∈ g.revisions) := by
              rw [hG0]
              constructor
              · rintro ⟨g, hg, hr1, hr2⟩
                rw [hmem1 g] at hg
                rcases hg with hg | rfl
                · exact ⟨g, hdrop_sub g hg, hr1, hr2⟩
                · rw [List.mem_singleton] at hr1
                  exact absurd hr1 hne1
              · rintro ⟨g, hg, hr1, hr2⟩
                rcases (mem_split_getLast? hlatest).mp hg with hg | rfl
                · exact ⟨g, (hmem1 g).mpr (Or.inl hg), hr1, hr2⟩
                · rw [hlatest_empty] at hr1
                  cases hr1
            rw [hlhs, hrhs]
            exact ihB r1 r2 h1 h2 h12
          · exact absurd (revLt_asymm h12) (not_not_intro (hlt _ h2))
        · rcases h1 with h1 | rfl
          · have hne1 : r1 ≠ r := hfresh r1 (Or.inl h1)
            apply iff_of_false
            · rintro ⟨g, hg, hr1, hr2⟩
              rw [hmem1 g] at hg
              rcases hg with hg | rfl
              · exact hnotr g (hdrop_sub g hg) hr2
              · rw [List.mem_singleton] at hr1
                exact hne1 hr1
            · intro hnex
              have hnex0 : ¬ ∃ d, KOp.del d ∈ ops ∧ revLt r1 d := by
                rintro ⟨d, hd, hl⟩
                exact hnex ⟨d, (hdels_iff d).mpr hd, hl, hdel_lt d hd⟩
              obtain ⟨g, hgl, hgs, hgr⟩ := (ih2 r1 h1).mpr hnex0
              rw [hG0, hlatest] at hgl
              rw [← Option.some_inj.mp hgl] at hgs
              rw [hcf] at hgs
              cases hgs
          · exact absurd h12 (revLt_irrefl r)

theorem traceInv_del (key : Key) (ops : List KOp) (dd : Revision)
    (ih : TraceInv key ops) (hlt : ∀ o ∈ ops, revLt o.rev dd) :
    TraceInv key (ops ++ [KOp.del dd]) := by
  obtain ⟨ih0, ih0b, ih1, ih3, ih2, ihB⟩ := ih
  have hdd_new : KOp.del dd ∈ ops ++ [KOp.del dd] := by simp
  have hputs_iff : ∀ r', KOp.put r' ∈ ops ++ [KOp.del dd] ↔ KOp.put r' ∈ ops := by
    intro r'
    simp [List.mem_append]
  have hdels_iff : ∀ d, KOp.del d ∈ ops ++ [KOp.del dd] ↔
      (KOp.del d ∈ ops ∨ dd = d) := by
    intro d
    rw [List.mem_append, List.mem_singleton]
    constructor
    · rintro (h | h)
      · exact Or.inl h
      · injection h with h
        exact Or.inr h.symm
    · rintro (h | h)
      · exact Or.inl h
      · rw [h]
        exact Or.inr rfl
  have hfresh : ∀ rv, (KOp.put rv ∈ ops ∨ KOp.del rv ∈ ops) → rv ≠ dd := by
    rintro rv (h | h) rfl
    · exact revLt_irrefl rv (hlt _ h)
    · exact revLt_irrefl rv (hlt _ h)
  cases hS : applyTrace key ops with
  | none =>
    have hS1 : applyTrace key (ops ++ [KOp.del dd]) = none := by
      rw [applyTrace_snoc, hS]
      rfl
    have hnoput : ∀ r', KOp.put r' ∉ ops := ih0.mp hS
    refine ⟨⟨fun _ r' hr => hnoput r' ((hputs_iff r').mp hr), fun _ => hS1⟩,
            ?_, ?_, ?_, ?_, ?_⟩
    · intro ki hki
      rw [hS1] at hki
      cases hki
    · intro g hg
      rw [hS1] at hg
      simp [gensOf] at hg
    · intro g hg
      rw [hS1] at hg
      simp [gensOf] at hg
    · intro r1 h1
      exact absurd ((hputs_iff r1).mp h1) (hnoput r1)
    · intro r1 r2 h1 _ _
      exact absurd ((hputs_iff r1).mp h1) (hnoput r1)
  | some ki =>
    have hgne : ki.generations ≠ [] := ih0b ki hS
    obtain ⟨latest, hlatest⟩ : ∃ l, ki.generations.getLast? = some l := by
      cases hx : ki.generations.getLast? with
      | none => exact absurd (List.getLast?_eq_none_iff.mp hx) hgne
      | some l => exact ⟨l, rfl⟩
    have hG0 : gensOf (applyTrace key ops) = ki.generations := by
      rw [hS]
      rfl
    have hdrop_sub : ∀ g ∈ ki.generations.dropLast, g ∈ ki.generations :=
      fun g hg => (mem_split_getLast? hlatest).mpr (Or.inl hg)
    have hlatest_mem : latest ∈ ki.generations := mem_of_getLast? hlatest
    have hnotput : ¬ ∀ r', KOp.put r' ∉ ops := by
      intro h0
      rw [ih0.mpr h0] at hS
      cases hS
    by_cases hc : latest.createRevision.isSome
    · -- last generation open: the delete closes it with a tombstone
      have hS1 : applyTrace key (ops ++ [KOp.del dd]) =
          some ({ ki with
                  modRevision := dd,
                  generations := ki.generations.dropLast ++
                    [{ latest with
                       revisions := latest.revisions ++ [dd],
                       verison := latest.verison + 1 }, ⟨none, 0, []⟩] }) := by
        rw [applyTrace_snoc, hS, traceStep_del_open key dd ki latest hlatest hc]
      have hG1 : gensOf (applyTrace key (ops ++ [KOp.del dd])) =
          ki.generations.dropLast ++
            [{ latest with
               revisions := latest.revisions ++ [dd],
               verison := latest.verison + 1 }, ⟨none, 0, []⟩] := by
        rw [hS1]
        rfl
      have hlast1 : (gensOf (applyTrace key (ops ++ [KOp.del dd]))).getLast? =
          some ⟨none, 0, []⟩ := by
        rw [hG1]
        rw [show ki.generations.dropLast ++
              [{ latest with
                 revisions := latest.revisions ++ [dd],
                 verison := latest.verison + 1 }, (⟨none, 0, []⟩ : Generation)] =
            (ki.generations.dropLast ++
              [{ latest with
                 revisions := latest.revisions ++ [dd],
                 verison := latest.verison + 1 }]) ++ [⟨none, 0, []⟩] by simp]
        exact List.getLast?_concat _
      have hmem1 : ∀ g, g ∈ gensOf (applyTrace key (ops ++ [KOp.del dd])) ↔
          (g ∈ ki.generations.dropLast ∨
           g = { latest with
                 revisions := latest.revisions ++ [dd],
                 verison := latest.verison + 1 } ∨
           g = ⟨none, 0, []⟩) := by
        intro g
        rw [hG1]
        simp
      refine ⟨⟨fun h => ?_, fun h => ?_⟩, ?_, ?_, ?_, ?_, ?_⟩
      · rw [hS1] at h
        cases h
      · exact absurd (fun r' hr => h r' (List.mem_append_left _ hr)) hnotput
      · intro ki1 hki
        rw [hS1] at hki
        rw [← Option.some_inj.mp hki]
        simp
      · intro g hg rv hrv
        rw [hmem1 g] at hg
        rcases hg with hg | rfl | rfl
        · exact (ih1 g (by rw [hG0]; exact hdrop_sub g hg) rv hrv).imp
            (fun h => List.mem_append_left _ h) (fun h => List.mem_append_left _ h)
        · simp only at hrv
          rcases List.mem_append.mp hrv with hrv | hrv
          · exact (ih1 latest (by rw [hG0]; exact hlatest_mem) rv hrv).imp
              (fun h => List.mem_append_left _ h) (fun h => List.mem_append_left _ h)
          · rw [List.mem_singleton] at hrv
            subst hrv
            exact Or.inr hdd_new
        · cases hrv
      · intro g hg hcre
        rw [hmem1 g] at hg
        rcases hg with hg | rfl | rfl
        · exact ih3 g (by rw [hG0]; exact hdrop_sub g hg) hcre
        · simp only at hcre
          rw [hc] at hcre
          cases hcre
        · rfl
      · intro r1 h1
        rw [hputs_iff r1] at h1
        apply iff_of_false
        · rintro ⟨g, hgl, hgs, -⟩
          rw [hlast1] at hgl
          rw [← Option.some_inj.mp hgl] at hgs
          cases hgs
        · intro hnex
          exact hnex ⟨dd, hdd_new, hlt _ h1⟩
      · intro r1 r2 h1 h2 h12
        rw [hputs_iff r1] at h1
        rw [hputs_iff r2] at h2
        have hne1 : r1 ≠ dd := hfresh r1 (Or.inl h1)
        have hne2 : r2 ≠ dd := hfresh r2 (Or.inl h2)
        have hrhs : (∃ d, KOp.del d ∈ ops ++ [KOp.del dd] ∧
            revLt r1 d ∧ revLt d r2) ↔
            (∃ d, KOp.del d ∈ ops ∧ revLt r1 d ∧ revLt d r2) := by
          constructor
          · rintro ⟨d, hd, hl⟩
            rcases (hdels_iff d).mp hd with hd | rfl
            · exact ⟨d, hd, hl⟩
            · exact absurd hl.2 (revLt_asymm (hlt _ h2))
          · rintro ⟨d, hd, hl⟩
            exact ⟨d, (hdels_iff d).mpr (Or.inl hd), hl⟩
        have hlhs : (∃ g ∈ gensOf (applyTrace key (ops ++ [KOp.del dd])),
            r1 ∈ g.revisions ∧ r2 ∈ g.revisions) ↔
            (∃ g ∈ gensOf (applyTrace key ops),
             r1 ∈ g.revisions ∧ r2 ∈ g.revisions) := by
          rw [hG0]
          constructor
          · rintro ⟨g, hg, hr1, hr2⟩
            rw [hmem1 g] at hg
            rcases hg with hg | rfl | rfl
            · exact ⟨g, hdrop_sub g hg, hr1, hr2⟩
            · simp only at hr1 hr2
              refine ⟨latest, hlatest_mem, ?_, ?_⟩
              · rcases List.mem_append.mp hr1 with h | h
                · exact h
                · rw [List.mem_singleton] at h
                  exact absurd h hne1
              · rcases List.mem_append.mp hr2 with h | h
                · exact h
                · rw [List.mem_singleton] at h
                  exact absurd h hne2
            · cases hr1
          · rintro ⟨g, hg, hr1, hr2⟩
            rcases (mem_split_getLast? hlatest).mp hg with hg | rfl
            · exact ⟨g, (hmem1 g).mpr (Or.inl hg), hr1, hr2⟩
            · refine ⟨_, (hmem1 _).mpr (Or.inr (Or.inl rfl)), ?_, ?_⟩
              · simp only []
                exact List.mem_append_left _ hr1
              · simp only []
                exact List.mem_append_left _ hr2
        rw [hlhs, hrhs]
        exact ihB r1 r2 h1 h2 h12
    · -- last generation already a tombstone: only mod revision moves
      have hcf : latest.createRevision.isSome = false := by
        simpa using hc
      have hS1 : applyTrace key (ops ++ [KOp.del dd]) =
          some ({ ki with modRevision := dd }) := by
        rw [applyTrace_snoc, hS, traceStep_del_tomb key dd ki latest hlatest hcf]
      have hG1 : gensOf (applyTrace key (ops ++ [KOp.del dd])) =
          ki.generations := by
        rw [hS1]
        rfl
      have hlast1 : (gensOf (applyTrace key (ops ++ [KOp.del dd]))).getLast? =
          some latest := by
        rw [hG1]
        exact hlatest
      refine ⟨⟨fun h => ?_, fun h => ?_⟩, ?_, ?_, ?_, ?_, ?_⟩
      · rw [hS1] at h
        cases h
      · exact absurd (fun r' hr => h r' (List.mem_append_left _ hr)) hnotput
      · intro ki1 hki
        rw [hS1] at hki
        rw [← Option.some_inj.mp hki]
        exact hgne
      · intro g hg rv hrv
        rw [hG1] at hg
        exact (ih1 g (by rw [hG0]; exact hg) rv hrv).imp
          (fun h => List.mem_append_left _ h) (fun h => List.mem_append_left _ h)
      · intro g hg hcre
        rw [hG1] at hg
        exact ih3 g (by rw [hG0]; exact hg) hcre
      · intro r1 h1
        rw [hputs_iff r1] at h1
        apply iff_of_false
        · rintro ⟨g, hgl, hgs, -⟩
          rw [hlast1] at hgl
          rw [← Option.some_inj.mp hgl] at hgs
          rw [hcf] at hgs
          cases hgs
        · intro hnex
          exact hnex ⟨dd, hdd_new, hlt _ h1⟩
      · intro r1 r2 h1 h2 h12
        rw [hputs_iff r1] at h1
        rw [hputs_iff r2] at h2
        have hrhs : (∃ d, KOp.del d ∈ ops ++ [KOp.del dd] ∧
            revLt r1 d ∧ revLt d r2) ↔
            (∃ d, KOp.del d ∈ ops ∧ revLt r1 d ∧ revLt d r2) := by
          constructor
          · rintro ⟨d, hd, hl⟩
            rcases (hdels_iff d).mp hd with hd | rfl
            · exact ⟨d, hd, hl⟩
            · exact absurd hl.2 (revLt_asymm (hlt _ h2))
          · rintro ⟨d, hd, hl⟩
            exact ⟨d, (hdels_iff d).mpr (Or.inl hd), hl⟩
        have hlhs : (∃ g ∈ gensOf (applyTrace key (ops ++ [KOp.del dd])),
            r1 ∈ g.revisions ∧ r2 ∈ g.revisions) ↔
            (∃ g ∈ gensOf (applyTrace key ops),
             r1 ∈ g.revisions ∧ r2 ∈ g.revisions) := by
          rw [hG1, hG0]
        rw [hlhs, hrhs]
        exact ihB r1 r2 h1 h2 h12

theorem traceInv_holds (key : Key) (ops : List KOp)
    (hsorted : List.Pairwise revLt (ops.map KOp.rev)) :
    TraceInv key ops := by
  induction ops using List.reverseRecOn with
  | nil =>
    refine ⟨⟨fun _ r h => (by cases h), fun _ => rfl⟩, ?_, ?_, ?_, ?_, ?_⟩
    · intro ki hki
      cases hki
    · intro g hg
      simp [applyTrace, gensOf] at hg
    · intro g hg
      simp [applyTrace, gensOf] at hg
    · intro r1 h1
      cases h1
    · intro r1 r2 h1 _ _
      cases h1
  | append_singleton ops op ih =>
    rw [List.map_append, List.pairwise_append] at hsorted
    obtain ⟨hs1, _, hs3⟩ := hsorted
    have hlt : ∀ o ∈ ops, revLt o.rev op.rev := by
      intro o ho
      exact hs3 o.rev (List.mem_map_of_mem _ ho) op.rev (by simp)
    cases op with
    | put r => exact traceInv_put key ops r (ih hs1) hlt
    | del r => exact traceInv_del key ops r (ih hs1) hlt

/-- C4: over any sequence of successful put/delete applies on one key,
issued in strictly increasing revision order, two put revisions R1 < R2 end
up in the same generation of the key's index iff no delete was applied
between them; and a put applied when the last generation is a tombstone
(i.e. right after a delete) starts a fresh generation whose create revision
is the new put's revision and whose version is 1 — a generation distinct
from every generation present before the put. -/
theorem C4_same_generation_iff_no_delete_between (key : Key) (ops : List KOp)
    (hsorted : List.Pairwise revLt (ops.map KOp.rev)) :
    (∀ r1 r2, KOp.put r1 ∈ ops → KOp.put r2 ∈ ops → revLt r1 r2 →
      ((∃ g ∈ gensOf (applyTrace key ops), r1 ∈ g.revisions ∧ r2 ∈ g.revisions) ↔
       ¬ ∃ d, KOp.del d ∈ ops ∧ revLt r1 d ∧ revLt d r2)) ∧
    (∀ r ki latest, applyTrace key ops = some ki →
      ki.generations.getLast? = some latest →
      latest.createRevision.isSome = false →
      (∀ o ∈ ops, revLt o.rev r) →
      gensOf (applyTrace key (ops ++ [KOp.put r])) =
        ki.generations.dropLast ++ [⟨some r, 1, [r]⟩] ∧
      ∀ g ∈ gensOf (applyTrace key ops), (⟨some r, 1, [r]⟩ : Generation) ≠ g) := by
  have inv := traceInv_holds key ops hsorted
  obtain ⟨-, -, ih1, -, -, ihB⟩ := inv
  refine ⟨ihB, ?_⟩
  intro r ki latest hS hlast hc hlt
  constructor
  · rw [applyTrace_snoc, hS, traceStep_put_tomb key r ki latest hlast hc]
    rfl
  · intro g hg heq
    have hr : r ∈ g.revisions := by
      rw [← heq]
      simp
    rcases ih1 g hg r hr with h | h
    · exact revLt_irrefl r (hlt _ h)
    · exact revLt_irrefl r (hlt _ h)

theorem C4_witness :
    gensOf (applyTrace [107]
        ([KOp.put ⟨1, 0⟩, KOp.del ⟨2, 0⟩] ++ [KOp.put ⟨3, 0⟩])) =
      ([⟨some ⟨1, 0⟩, 2, [⟨1, 0⟩, ⟨2, 0⟩]⟩, ⟨none, 0, []⟩] :
        List Generation).dropLast ++ [⟨some ⟨3, 0⟩, 1, [⟨3, 0⟩]⟩] ∧
    ((∃ g ∈ gensOf (applyTrace [107]
         [KOp.put ⟨1, 0⟩, KOp.del ⟨2, 0⟩, KOp.put ⟨3, 0⟩]),
       (⟨1, 0⟩ : Revision) ∈ g.revisions ∧ (⟨3, 0⟩ : Revision) ∈ g.revisions) ↔
     ¬ ∃ d, KOp.del d ∈ [KOp.put ⟨1, 0⟩, KOp.del ⟨2, 0⟩, KOp.put ⟨3, 0⟩] ∧
       revLt ⟨1, 0⟩ d ∧ revLt d ⟨3, 0⟩) :=
  ⟨((C4_same_generation_iff_no_delete_between [107]
       [KOp.put ⟨1, 0⟩, KOp.del ⟨2, 0⟩] (by decide)).2 ⟨3, 0⟩
       ⟨[107], ⟨2, 0⟩, [⟨some ⟨1, 0⟩, 2, [⟨1, 0⟩, ⟨2, 0⟩]⟩, ⟨none, 0, []⟩]⟩
       ⟨none, 0, []⟩ (by decide) (by decide) (by decide) (by decide)).1,
   (C4_same_generation_iff_no_delete_between [107]
       [KOp.put ⟨1, 0⟩, KOp.del ⟨2, 0⟩, KOp.put ⟨3, 0⟩] (by decide)).1
     ⟨1, 0⟩ ⟨3, 0⟩ (by decide) (by decide) (by decide)⟩

end DingoKv
